import Mathlib

/-!
# Verification of the libra-ai chunking / embedding / retrieval core

This file gives a shallow embedding, in Lean 4, of the document-processing and
retrieval pipeline of the libra-ai repository, and proves or refutes the
specification claims about it.

The embedded code is the processor/retriever pair of
backend/lexi/legal_doc_processor.py (LegalDocumentProcessor and
LegalRAGRetriever).  The juris twin, backend/juris/patent_doc_processor.py,
has byte-identical retriever code (PatentRAGRetriever.__init__ and
search_similar_chunks agree verbatim with the lexi versions), and an analogous
processor; claims about the retriever therefore hold for both subsystems at
once.

Modelling conventions:
* Text is a list of characters.  Character classes of Python regular
  expressions are modelled over the characters the code actually meets:
  the word class and the digit class are ASCII (letters, digits, underscore),
  the whitespace class is the standard Python whitespace set.
* Floating point numbers are modelled as exact rationals.  A cosine
  similarity value num / sqrt den2 is represented by the pair (num, den2)
  so that all comparisons stay inside the rationals.
* External collaborators (PDF extraction, the OpenAI embedding endpoint)
  are oracle parameters: an extractor function and an embedder function.
  A failing embedder call is an embedder returning none.
* numpy / scikit-learn behaviour embedded here: np.array over a ragged list
  of lists raises (numpy 1.24 and later: inhomogeneous-shape ValueError);
  np.array over an empty list yields a one-dimensional empty array, rejected
  by scikit-learn input validation; sklearn cosine_similarity normalizes
  rows, mapping zero norms to 1; np.argsort sorts ascending, modelled as a
  stable sort (numpy uses insertion sort on small arrays).
* Python slice semantics a[start:] is modelled exactly, including a[-0:]
  being the whole list.
-/

/-! ## Character classes -/

/-- Python whitespace, as matched by the regex class backslash-s on str and by
str.strip / str.isspace: ASCII whitespace, the information separators, NEL,
and the Unicode space characters. -/
def isPyWs (c : Char) : Bool :=
  c = ' ' || c = '\t' || c = '\n' || c = '\r' || c = '\x0b' || c = '\x0c' ||
  c = '\x1c' || c = '\x1d' || c = '\x1e' || c = '\x1f' || c = '\x85' ||
  c = '\xa0' || c = ' ' || (' ' ≤ c && c ≤ ' ') ||
  c = ' ' || c = ' ' || c = ' ' || c = ' ' || c = '　'

/-- The regex word class (ASCII approximation of Python backslash-w). -/
def isWordChar (c : Char) : Bool :=
  c.isAlpha || c.isDigit || c = '_'

/-- The regex digit class (ASCII approximation of Python backslash-d). -/
def isDigitC (c : Char) : Bool :=
  c.isDigit

/-- The literal regex range a-z. -/
def isLowerAZ (c : Char) : Bool := 'a' ≤ c && c ≤ 'z'

/-- The literal regex range A-Z. -/
def isUpperAZ (c : Char) : Bool := 'A' ≤ c && c ≤ 'Z'

/-! ## Generic string helpers -/

/-- Does the second list start with the first? -/
def startsWith : List Char → List Char → Bool
  | [], _ => true
  | _ :: _, [] => false
  | p :: ps, c :: cs => p = c && startsWith ps cs

/-- Leftmost index of an occurrence of pat, as in Python str.find
(returning none instead of -1). -/
def findSub (pat : List Char) : List Char → Option Nat
  | [] => if pat = [] then some 0 else none
  | c :: cs =>
    if startsWith pat (c :: cs) then some 0
    else (findSub pat cs).map (· + 1)

/-- Python str.replace old new: scan left to right, replace non-overlapping
occurrences, resume after each replacement.  (For an empty needle the model
is the identity; the code only uses non-empty needles.) -/
def strReplace (needle repl : List Char) (l : List Char) : List Char :=
  match needle with
  | [] => l
  | p :: ps =>
    match l with
    | [] => []
    | c :: cs =>
      if startsWith (p :: ps) (c :: cs) then
        repl ++ strReplace (p :: ps) repl ((c :: cs).drop (p :: ps).length)
      else
        c :: strReplace (p :: ps) repl cs
termination_by l.length
decreasing_by
  · simp [List.length_drop]; omega
  · simp

/-- Python str.strip: remove leading and trailing whitespace. -/
def stripL (l : List Char) : List Char :=
  ((l.dropWhile isPyWs).reverse.dropWhile isPyWs).reverse

/-- Python slice a[start:], including the negative-start case and the
a[-0:] = a case. -/
def pySliceFrom (start : Int) (l : List α) : List α :=
  if start < 0 then l.drop (l.length - (-start).toNat) else l.drop start.toNat

/-! ## clean_text  (LegalDocumentProcessor.clean_text)

The source method applies, in order:
1. re.sub collapsing every whitespace run to a single space;
2. re.sub removing newline-delimited page markers (replacement: a newline);
3. re.sub inserting a space between a lower-case letter followed by an
   upper-case letter;
4. re.sub inserting a space between a word character and a section number
   of the form digits dot digits;
5. the two quote-normalization lines; in the source file as committed the
   first line parses as a replace of the double-quote character by itself,
   twice, and the second line parses as a single replace call whose needle
   is the 15-character run sitting between its two triple-quote tokens and
   whose replacement is one apostrophe;
6. str.strip.
-/

/-- Step 1: collapse every maximal whitespace run to one space char. -/
def collapseWs : List Char → List Char
  | [] => []
  | a :: rest =>
    if isPyWs a then
      match rest with
      | [] => [' ']
      | b :: _ => if isPyWs b then collapseWs rest else ' ' :: collapseWs rest
    else a :: collapseWs rest

/-- Does the page-marker pattern (newline, three dashes, the word Page,
digits, space, three dashes, newline) match at the head of the list? -/
def isPageMarker (l : List Char) : Bool :=
  match l with
  | '\n' :: rest =>
    startsWith ['-', '-', '-', ' ', 'P', 'a', 'g', 'e', ' '] rest &&
    decide ((rest.drop 9).takeWhile isDigitC ≠ []) &&
    startsWith [' ', '-', '-', '-', '\n']
      ((rest.drop 9).drop ((rest.drop 9).takeWhile isDigitC).length)
  | _ => false

/-- The remainder after a page-marker match at the head of the list
(meaningful only when isPageMarker holds). -/
def pageMarkerTail (l : List Char) : List Char :=
  match l with
  | _ :: rest => ((rest.drop 9).drop ((rest.drop 9).takeWhile isDigitC).length).drop 5
  | [] => []

/-- Step 2: re.sub of the page-marker pattern with a newline as the
replacement, scanning left to right, resuming after each match. -/
def removePageMarkers (l : List Char) : List Char :=
  match l with
  | [] => []
  | c :: cs =>
    if isPageMarker (c :: cs) then '\n' :: removePageMarkers (pageMarkerTail (c :: cs))
    else c :: removePageMarkers cs
termination_by l.length
decreasing_by
  · simp [pageMarkerTail, List.length_drop]; omega
  · simp

/-- Step 3: insert a space between a lower-case letter and an immediately
following upper-case letter (the merged-word fix); the scan resumes after
a match's two characters. -/
def splitMerged : List Char → List Char
  | [] => []
  | [c] => [c]
  | a :: b :: rest =>
    if isLowerAZ a && isUpperAZ b then a :: ' ' :: b :: splitMerged rest
    else a :: splitMerged (b :: rest)

/-- The first digit group of a section-number match attempt starting right
after the word character. -/
def secD1 (rest : List Char) : List Char := rest.takeWhile isDigitC

/-- What follows the dot of a section-number match attempt. -/
def secRest2 (rest : List Char) : List Char := (rest.drop (secD1 rest).length).drop 1

/-- The second digit group of a section-number match attempt. -/
def secD2 (rest : List Char) : List Char := (secRest2 rest).takeWhile isDigitC

/-- The remainder after a full section-number match. -/
def secAfter (rest : List Char) : List Char := (secRest2 rest).drop (secD2 rest).length

/-- Does a section number (one or more digits, a dot, one or more digits)
start here? -/
def secMatch (rest : List Char) : Bool :=
  decide (secD1 rest ≠ []) &&
  (match rest.drop (secD1 rest).length with
   | '.' :: _ => true
   | _ => false) &&
  decide (secD2 rest ≠ [])

/-- Step 4: insert a space between a word character and a following
section number (one or more digits, a dot, one or more digits); the scan
resumes after the section number. -/
def sepSecNums (l : List Char) : List Char :=
  match l with
  | [] => []
  | a :: rest =>
    if isWordChar a && secMatch rest then
      a :: ' ' :: (secD1 rest ++ '.' :: (secD2 rest ++ sepSecNums (secAfter rest)))
    else a :: sepSecNums rest
termination_by l.length
decreasing_by
  · simp [secAfter, secRest2, List.length_drop]; omega
  · simp

/-- The needle of the quote-normalization replace call as it parses in the
committed source: the 15 characters sitting between the two triple-quote
tokens of the line. -/
def quoteReplaceSrc : List Char := (", \"'\").replace(").data

/-- Steps 5 and 6 composed with the earlier steps: the full
LegalDocumentProcessor.clean_text. -/
def clean_text (text : List Char) : List Char :=
  let t1 := collapseWs text
  let t2 := removePageMarkers t1
  let t3 := splitMerged t2
  let t4 := sepSecNums t3
  let t5 := strReplace ['"'] ['"'] (strReplace ['"'] ['"'] t4)
  let t6 := strReplace quoteReplaceSrc ['\''] t5
  stripL t6

/-! ## Sentence splitting and chunking  (LegalDocumentProcessor.chunk_text)

The source splits on the regex lookbehind pattern: a whitespace run that
immediately follows one of the three sentence-final punctuation marks.  The
pieces between split points are the sentences; a trailing run produces a
final empty piece, as re.split does.  (The except-branch fallback in the
source is dead code: the regex is valid, so re.split never raises.)
-/

/-- Is the head of the accumulator (the most recently read character of the
current piece, since the accumulator is reversed) sentence-final
punctuation? -/
def endsSentencePunct (acc : List Char) : Bool :=
  match acc with
  | c :: _ => c = '.' || c = '!' || c = '?'
  | [] => false

mutual

/-- Scanner state: reading a piece (accumulator reversed). -/
def ssAux (acc : List Char) : List Char → List (List Char)
  | [] => [acc.reverse]
  | c :: rest =>
    if isPyWs c && endsSentencePunct acc then acc.reverse :: ssSkip rest
    else ssAux (c :: acc) rest

/-- Scanner state: consuming the whitespace run at a split point. -/
def ssSkip : List Char → List (List Char)
  | [] => [[]]
  | c :: rest => if isPyWs c then ssSkip rest else ssAux [c] rest

end

/-- re.split on the sentence-boundary pattern. -/
def splitSentences (l : List Char) : List (List Char) := ssAux [] l

/-- LegalDocumentProcessor._get_overlap_text: the last overlap_size
characters (Python slicing: minus zero means the whole string), advanced
past the first sentence boundary found strictly inside it. -/
def _get_overlap_text (text : List Char) (overlap_size : Nat) : List Char :=
  if text.length ≤ overlap_size then text
  else
    let overlap_text := if overlap_size = 0 then text else text.drop (text.length - overlap_size)
    match findSub ['.', ' '] overlap_text with
    | some j => if 0 < j then overlap_text.drop (j + 2) else overlap_text
    | none => overlap_text

/-- One chunk record as built by chunk_text: the dict with keys index,
text, size, start_sentence. -/
structure ChunkRec where
  index : Nat
  text : List Char
  size : Nat
  start_sentence : Int
deriving DecidableEq, Repr, Inhabited

/-- Close the current buffer into a chunk record (text stripped, tracked
size, and the approximate start_sentence formula of the source, using
Python floor division). -/
def mkChunkRec (chunk_size overlap : Nat) (idx : Nat) (cur : List Char) (size : Nat) : ChunkRec :=
  ⟨idx, stripL cur, size, Int.fdiv (idx * ((chunk_size : Int) - (overlap : Int))) 100⟩

/-- The loop state of chunk_text: chunks so far, current buffer, tracked
size, and next chunk index. -/
structure ChunkState where
  chunks : List ChunkRec
  cur : List Char
  size : Nat
  idx : Nat
deriving DecidableEq, Repr, Inhabited

/-- One iteration of the sentence loop of chunk_text. -/
def chunkStep (chunk_size overlap : Nat) (st : ChunkState) (s : List Char) : ChunkState :=
  if st.size + s.length > chunk_size ∧ st.cur ≠ [] then
    let closed := st.chunks ++ [mkChunkRec chunk_size overlap st.idx st.cur st.size]
    let newCur := _get_overlap_text st.cur overlap ++ ' ' :: s
    ⟨closed, newCur, newCur.length, st.idx + 1⟩
  else
    ⟨st.chunks, (if st.cur ≠ [] then st.cur ++ ' ' :: s else s), st.size + s.length, st.idx⟩

/-- LegalDocumentProcessor.chunk_text (defaults: chunk_size 1000,
overlap 200). -/
def chunk_text (text : List Char) (chunk_size : Nat := 1000) (overlap : Nat := 200) :
    List ChunkRec :=
  let st := (splitSentences text).foldl (chunkStep chunk_size overlap) ⟨[], [], 0, 0⟩
  if st.cur ≠ [] then st.chunks ++ [mkChunkRec chunk_size overlap st.idx st.cur st.size]
  else st.chunks

/-! ## Embedding and document processing
(LegalDocumentProcessor.generate_embedding / process_document /
process_legal_documents)

The OpenAI embedding call is an oracle: an embedder function returning
none exactly when the call raises.  PDF extraction is likewise an oracle
from path to extracted text.
-/

/-- The configured embedding model identifier. -/
def embedding_model : List Char := "text-embedding-3-small".data

/-- The configured embedding dimension. -/
def embedding_dimension : Nat := 1536

/-- LegalDocumentProcessor.generate_embedding: the collaborator result,
or a zero vector of the configured dimension when the call fails. -/
def generate_embedding (embedder : List Char → Option (List ℚ)) (text : List Char) : List ℚ :=
  (embedder text).getD (List.replicate embedding_dimension 0)

/-- pathlib Path.stem: the final path component without its last suffix. -/
def pathStem (p : List Char) : List Char :=
  let base := (p.splitOn '/').getLastD []
  match findSub ['.'] base.reverse with
  | some j =>
    if j + 1 < base.length then base.take (base.length - j - 1) else base
  | none => base

/-- The metadata dict attached to each processed chunk. -/
structure ProcChunkMeta where
  chunk_index : Nat
  size : Nat
  document_path : List Char
  start_sentence : Int
deriving DecidableEq, Repr, Inhabited

/-- A processed chunk of the knowledge base (the dict with keys chunk_id,
document_name, text, embedding, metadata). -/
structure ProcChunk where
  chunk_id : List Char
  document_name : List Char
  text : List Char
  embedding : List ℚ
  metadata : ProcChunkMeta
deriving DecidableEq, Repr, Inhabited

/-- The per-document metadata dict (the ingestion statistics of one
document). -/
structure DocMeta where
  original_text_length : Nat
  clean_text_length : Nat
  embedding_model : List Char
deriving DecidableEq, Repr, Inhabited

/-- One processed document record. -/
structure DocData where
  document_name : List Char
  document_path : List Char
  total_chunks : Nat
  chunks : List ProcChunk
  metadata : DocMeta
deriving DecidableEq, Repr, Inhabited

/-- LegalDocumentProcessor.process_document, with the extracted raw text
passed in (extract_text_from_pdf is the extraction collaborator composed
with file I/O).  Returns none when no text was extracted. -/
def process_document (embedder : List Char → Option (List ℚ))
    (raw_text : List Char) (pdf_path : List Char)
    (document_name : Option (List Char) := none) : Option DocData :=
  let name := document_name.getD (pathStem pdf_path)
  if raw_text = [] then none
  else
    let ct := clean_text raw_text
    let chunks := chunk_text ct 1000 200
    let processed := chunks.map (fun ch =>
      { chunk_id := name ++ "_chunk_".data ++ (Nat.repr ch.index).data
        document_name := name
        text := ch.text
        embedding := generate_embedding embedder ch.text
        metadata := ⟨ch.index, ch.size, pdf_path, ch.start_sentence⟩ })
    some { document_name := name
           document_path := pdf_path
           total_chunks := processed.length
           chunks := processed
           metadata := ⟨raw_text.length, ct.length, embedding_model⟩ }

/-- The aggregate metadata dict of a knowledge base (its ingestion
statistics). -/
structure KBMeta where
  total_documents : Nat
  total_chunks : Nat
  embedding_model : List Char
  embedding_dimension : Nat
  processed_at : List Char
deriving DecidableEq, Repr, Inhabited

/-- A knowledge base as persisted: documents, the flattened chunk list,
and aggregate metadata. -/
structure KB where
  documents : List DocData
  all_chunks : List ProcChunk
  metadata : KBMeta
deriving DecidableEq, Repr, Inhabited

/-- LegalDocumentProcessor.process_legal_documents over the discovered PDF
files (the directory-existence check is file-system glue outside the model;
the zero-eligible-files check is kept).  The extractor oracle stands for
extract_text_from_pdf, and now for str(datetime.now()). -/
def process_legal_documents (embedder : List Char → Option (List ℚ))
    (extractor : List Char → List Char) (pdf_files : List (List Char))
    (now : List Char) : Except (List Char) KB :=
  if pdf_files = [] then .error "No PDF files found".data
  else
    let docs := pdf_files.filterMap (fun p => process_document embedder (extractor p) p none)
    let allChunks := docs.foldl (fun acc d => acc ++ d.chunks) []
    .ok { documents := docs
          all_chunks := allChunks
          metadata := ⟨docs.length, allChunks.length, embedding_model,
                       embedding_dimension, now⟩ }

/-! ## Vector math and the retriever
(LegalRAGRetriever.__init__ / search_similar_chunks; identical code in
PatentRAGRetriever)

Cosine similarity follows sklearn.metrics.pairwise.cosine_similarity:
both inputs are L2-normalized row-wise (a zero norm is replaced by 1, as
sklearn.preprocessing.normalize does) and then multiplied.  The real
value dot q c divided by sqrt of the product of the fixed squared norms
is represented exactly by the pair Score of its numerator and the squared
denominator.
-/

/-- Dot product of two rational vectors. -/
def dotQ (a b : List ℚ) : ℚ := (List.zipWith (· * ·) a b).sum

/-- Sum of squares (the squared L2 norm). -/
def sumsq (v : List ℚ) : ℚ := (v.map (fun x => x * x)).sum

/-- The zero-norm guard of sklearn normalize: norms equal to zero are
replaced by 1 before dividing. -/
def normFix (x : ℚ) : ℚ := if x = 0 then 1 else x

/-- A similarity value: the real number num divided by the square root of
den2 (den2 is positive for every score the pipeline builds). -/
structure Score where
  num : ℚ
  den2 : ℚ
deriving DecidableEq, Repr, Inhabited

/-- Cosine similarity of the query vector with one matrix row, as the
exact Score pair. -/
def cosRow (q c : List ℚ) : Score :=
  ⟨dotQ q c, normFix (sumsq q) * normFix (sumsq c)⟩

/-- Comparison of two similarity values (num divided by sqrt den2),
carried out inside the rationals by sign analysis and cross-squaring.
This is the exact order of the real values whenever both den2 are
positive. -/
def Score.ble (x y : Score) : Bool :=
  if 0 ≤ y.num then decide (x.num ≤ 0 ∨ x.num ^ 2 * y.den2 ≤ y.num ^ 2 * x.den2)
  else decide (x.num < 0 ∧ y.num ^ 2 * x.den2 ≤ x.num ^ 2 * y.den2)

/-- A numpy array built from a Python list of lists of floats: the empty
list gives a one-dimensional empty array; a non-empty list of equal-length
rows gives a matrix; ragged rows raise (numpy 1.24 and later). -/
inductive NpArr where
  | empty1d : NpArr
  | matrix : List (List ℚ) → NpArr
deriving DecidableEq, Repr, Inhabited

/-- np.array applied to the list of chunk embeddings. -/
def npArray (rows : List (List ℚ)) : Except (List Char) NpArr :=
  match rows with
  | [] => .ok .empty1d
  | r :: rs =>
    if rs.all (fun row => row.length = r.length) then .ok (.matrix (r :: rs))
    else .error "setting an array element with a sequence: inhomogeneous shape".data

/-- The in-memory retriever state: the chunk list and the stacked
embedding matrix. -/
structure Retriever where
  chunks : List ProcChunk
  embeddings : NpArr
deriving DecidableEq, Repr, Inhabited

/-- LegalRAGRetriever.__init__ / PatentRAGRetriever.__init__, applied to
the unpickled knowledge base: store all_chunks and build the embedding
matrix with np.array.  No explicit validation is performed; the only
failure is the one np.array itself raises. -/
def retriever_init (knowledge_base : KB) : Except (List Char) Retriever :=
  match npArray (knowledge_base.all_chunks.map (fun c => c.embedding)) with
  | .error e => .error e
  | .ok arr => .ok ⟨knowledge_base.all_chunks, arr⟩

/-- sklearn cosine_similarity of the query row vector against the stacked
matrix, returning the row of similarity scores.  Input validation follows
sklearn check_array / check_pairwise_arrays: a one-dimensional or empty
array is rejected, as is a column-count mismatch. -/
def cosine_similarity (q : List ℚ) (arr : NpArr) : Except (List Char) (List Score) :=
  match arr with
  | .empty1d => .error "Expected 2D array, got 1D array instead".data
  | .matrix rows =>
    if q.length = 0 then .error "Found array with 0 features".data
    else if (rows.headD []).length = q.length then .ok (rows.map (cosRow q))
    else .error "Incompatible dimension for X and Y matrices".data

/-- The default score used for out-of-range index lookups (never reached
on the indices argsort produces). -/
def dfltScore : Score := ⟨0, 1⟩

/-- The similarity value at a given chunk index. -/
def simAt (sims : List Score) (i : Nat) : Score := sims.getD i dfltScore

/-- The ascending comparison on chunk indices induced by their similarity
scores. -/
def idxLe (sims : List Score) (i j : Nat) : Prop := Score.ble (simAt sims i) (simAt sims j) = true

instance (sims : List Score) : DecidableRel (idxLe sims) := fun i j => by
  unfold idxLe
  infer_instance

/-- np.argsort over the similarity row: the indices in ascending order of
score.  numpy sorts ascending; the tie order is modelled as stable
(numpy's sort is insertion sort on small arrays). -/
def argsortScores (sims : List Score) : List Nat :=
  List.insertionSort (idxLe sims) (List.range sims.length)

/-- One returned search result (the dict with keys text, similarity,
document_name, chunk_id, metadata). -/
structure SearchResult where
  text : List Char
  similarity : Score
  document_name : List Char
  chunk_id : List Char
  metadata : ProcChunkMeta
deriving DecidableEq, Repr, Inhabited

/-- The result dict built for one selected index: the chunk's text, the
similarity value at that index, and the chunk's name, id and metadata. -/
def mkSearchResult (r : Retriever) (sims : List Score) (idx : Nat) : SearchResult :=
  let chunk := r.chunks.getD idx default
  { text := chunk.text
    similarity := simAt sims idx
    document_name := chunk.document_name
    chunk_id := chunk.chunk_id
    metadata := chunk.metadata }

/-- LegalRAGRetriever.search_similar_chunks / the byte-identical
PatentRAGRetriever.search_similar_chunks.  The query embedding is the
collaborator's output for the query string (generate_query_embedding has
no failure handling, so its errors propagate; the vector is the model's
input here).  top_k is a Python int: the slice with negative start minus
top_k is modelled exactly. -/
def search_similar_chunks (r : Retriever) (query_embedding : List ℚ) (top_k : Int) :
    Except (List Char) (List SearchResult) :=
  match cosine_similarity query_embedding r.embeddings with
  | .error e => .error e
  | .ok sims =>
    let top_indices := (pySliceFrom (-top_k) (argsortScores sims)).reverse
    .ok (top_indices.map (mkSearchResult r sims))

/-! ## Auxiliary predicates and concrete inputs used by the theorems -/

/-- Every whitespace character of the list is the plain space. -/
def WsOnlySpace (l : List Char) : Prop := ∀ c ∈ l, isPyWs c = true → c = ' '

/-- No two adjacent plain spaces. -/
def NoAdjSp (l : List Char) : Prop :=
  List.Chain' (fun a b => ¬(a = ' ' ∧ b = ' ')) l

/-- No lower-case letter immediately followed by an upper-case letter
(no match of the merged-word pattern). -/
def NoLowerUpper (l : List Char) : Prop :=
  List.Chain' (fun a b => ¬(isLowerAZ a = true ∧ isUpperAZ b = true)) l

/-- The list has no leading and no trailing whitespace. -/
def StrippedP (l : List Char) : Prop :=
  (∀ c, l.head? = some c → isPyWs c = false) ∧
  (∀ c, l.getLast? = some c → isPyWs c = false)

/-- Erase the embedding vector of a chunk, keeping everything else
(used to compare two pipeline runs up to the embeddings). -/
def scrubChunk (c : ProcChunk) : ProcChunk :=
  { c with embedding := [] }

/-- Erase the embedding vectors of a document record. -/
def scrubDoc (d : DocData) : DocData :=
  { d with chunks := d.chunks.map scrubChunk }

/-- Erase the embedding vectors of a knowledge base: what remains is
exactly the ingestion statistics and the text content. -/
def scrubKB (kb : KB) : KB :=
  { kb with documents := kb.documents.map scrubDoc,
            all_chunks := kb.all_chunks.map scrubChunk }

/-- A concrete processed chunk with a 2-dimensional embedding. -/
def cA : ProcChunk :=
  ⟨"doc_chunk_0".data, "doc".data, "alpha".data, [1, 0], ⟨0, 5, "doc.pdf".data, 0⟩⟩

/-- A second concrete chunk with the same embedding vector as cA. -/
def cB : ProcChunk :=
  ⟨"doc_chunk_1".data, "doc".data, "beta".data, [1, 0], ⟨1, 4, "doc.pdf".data, 0⟩⟩

/-- A chunk whose embedding is the all-zero vector. -/
def cZ : ProcChunk :=
  ⟨"doc_chunk_2".data, "doc".data, "gamma".data, [0, 0], ⟨2, 5, "doc.pdf".data, 0⟩⟩

/-- A chunk whose embedding has a different dimension (3 instead of 2). -/
def cM : ProcChunk :=
  ⟨"doc_chunk_3".data, "doc".data, "delta".data, [1, 2, 3], ⟨3, 5, "doc.pdf".data, 0⟩⟩

/-- A concrete knowledge-base metadata record. -/
def demoMeta : KBMeta := ⟨1, 2, embedding_model, 2, "2024-01-01".data⟩

/-- A two-chunk knowledge base whose chunks have identical embeddings. -/
def kbAB : KB := ⟨[], [cA, cB], demoMeta⟩

/-- A one-chunk knowledge base. -/
def kbA : KB := ⟨[], [cA], demoMeta⟩

/-- A knowledge base with zero chunks. -/
def kbEmpty : KB := ⟨[], [], demoMeta⟩

/-- A knowledge base containing a zero-embedding chunk. -/
def kbZ : KB := ⟨[], [cA, cZ], demoMeta⟩

/-- A knowledge base whose two chunks have embeddings of different
lengths. -/
def kbMixed : KB := ⟨[], [cA, cM], demoMeta⟩

/-- The document record produced by processing the text Hi. from the path
d.pdf with an embedder that always fails. -/
def docHi : DocData :=
  ⟨"d".data, "d.pdf".data, 1,
    [⟨"d_chunk_0".data, "d".data, "Hi.".data, List.replicate embedding_dimension 0,
      ⟨0, 3, "d.pdf".data, 0⟩⟩],
    ⟨3, 3, embedding_model⟩⟩

/-! ## Theorems -/


theorem space_ws : isPyWs ' ' = true := by decide

theorem ne_space_of_not_ws {c : Char} (h : ¬isPyWs c = true) : c ≠ ' ' := by
  intro he
  subst he
  exact h space_ws

theorem digitC_not_lower {c : Char} (h : isDigitC c = true) : isLowerAZ c = false := by
  by_contra hl
  rw [Bool.not_eq_false] at hl
  simp only [isDigitC, Char.isDigit, isLowerAZ, Bool.and_eq_true, decide_eq_true_eq,
    Char.le_def, ge_iff_le] at h hl
  exact absurd (UInt32.le_trans hl.1 h.2) (by decide)

theorem digitC_not_upper {c : Char} (h : isDigitC c = true) : isUpperAZ c = false := by
  by_contra hl
  rw [Bool.not_eq_false] at hl
  simp only [isDigitC, Char.isDigit, isUpperAZ, Bool.and_eq_true, decide_eq_true_eq,
    Char.le_def, ge_iff_le] at h hl
  exact absurd (UInt32.le_trans hl.1 h.2) (by decide)

theorem digitC_ne_space {c : Char} (h : isDigitC c = true) : c ≠ ' ' := by
  intro he
  subst he
  simp [isDigitC] at h

theorem collapseWs_nil : collapseWs [] = [] := rfl

theorem collapseWs_single_ws {b : Char} (hb : isPyWs b = true) :
    collapseWs [b] = [' '] := by
  rw [collapseWs.eq_def]
  simp [hb]

theorem collapseWs_ws_ws {b b1 : Char} {t : List Char} (hb : isPyWs b = true)
    (hb1 : isPyWs b1 = true) : collapseWs (b :: b1 :: t) = collapseWs (b1 :: t) := by
  rw [collapseWs.eq_def]
  simp [hb, hb1]

theorem collapseWs_ws_nws {b b1 : Char} {t : List Char} (hb : isPyWs b = true)
    (hb1 : ¬isPyWs b1 = true) :
    collapseWs (b :: b1 :: t) = ' ' :: collapseWs (b1 :: t) := by
  rw [collapseWs.eq_def]
  simp [hb, hb1]

theorem collapseWs_nws {b : Char} {t : List Char} (hb : ¬isPyWs b = true) :
    collapseWs (b :: t) = b :: collapseWs t := by
  rw [collapseWs.eq_def]
  cases t <;> simp [hb]

theorem wsOnlySpace_collapseWs (l : List Char) : WsOnlySpace (collapseWs l) := by
  unfold WsOnlySpace
  induction l using collapseWs.induct with
  | case1 => rw [collapseWs_nil]; intro c hc; simp at hc
  | case2 b hb =>
    intro c hc _
    rw [collapseWs_single_ws hb] at hc
    simpa using hc
  | case3 b hb b1 t hb1 ih =>
    intro c hc hw
    rw [collapseWs_ws_ws hb hb1] at hc
    exact ih c hc hw
  | case4 b hb b1 t hb1 ih =>
    intro c hc hw
    rw [collapseWs_ws_nws hb hb1] at hc
    rcases List.mem_cons.mp hc with hc | hc
    · exact hc
    · exact ih c hc hw
  | case5 b t hb ih =>
    intro c hc hw
    rw [collapseWs_nws hb] at hc
    rcases List.mem_cons.mp hc with hc | hc
    · subst hc; exact absurd hw hb
    · exact ih c hc hw

theorem head?_collapseWs (l : List Char) :
    (collapseWs l).head? = l.head?.map (fun c => if isPyWs c then ' ' else c) := by
  induction l using collapseWs.induct with
  | case1 => rw [collapseWs_nil]; rfl
  | case2 b hb => rw [collapseWs_single_ws hb]; simp [hb]
  | case3 b hb b1 t hb1 ih =>
    rw [collapseWs_ws_ws hb hb1, ih]
    simp [hb, hb1]
  | case4 b hb b1 t hb1 ih =>
    rw [collapseWs_ws_nws hb hb1]
    simp [hb]
  | case5 b t hb ih =>
    rw [collapseWs_nws hb]
    simp [hb]

theorem noAdjSp_collapseWs (l : List Char) : NoAdjSp (collapseWs l) := by
  unfold NoAdjSp
  induction l using collapseWs.induct with
  | case1 => rw [collapseWs_nil]; exact List.chain'_nil
  | case2 b hb => rw [collapseWs_single_ws hb]; exact List.chain'_singleton ' '
  | case3 b hb b1 t hb1 ih => rw [collapseWs_ws_ws hb hb1]; exact ih
  | case4 b hb b1 t hb1 ih =>
    rw [collapseWs_ws_nws hb hb1]
    rw [List.chain'_cons']
    refine ⟨?_, ih⟩
    intro y hy
    rw [head?_collapseWs] at hy
    simp only [List.head?_cons, Option.map_some', Option.some.injEq, if_neg hb1,
      Option.mem_def] at hy
    intro hcon
    exact (ne_space_of_not_ws hb1) (by rw [← hy] at hcon; exact hcon.2)
  | case5 b t hb ih =>
    rw [collapseWs_nws hb]
    rw [List.chain'_cons']
    refine ⟨?_, ih⟩
    intro y _ hcon
    exact (ne_space_of_not_ws hb) hcon.1

theorem collapseWs_id {l : List Char} (h1 : WsOnlySpace l) (h2 : NoAdjSp l) :
    collapseWs l = l := by
  induction l using collapseWs.induct with
  | case1 => rfl
  | case2 b hb =>
    rw [collapseWs_single_ws hb, h1 b (by simp) hb]
  | case3 b hb b1 t hb1 ih =>
    exfalso
    have e1 : b = ' ' := h1 b (by simp) hb
    have e2 : b1 = ' ' := h1 b1 (by simp) hb1
    subst e1; subst e2
    unfold NoAdjSp at h2
    rw [List.chain'_cons] at h2
    exact h2.1 ⟨rfl, rfl⟩
  | case4 b hb b1 t hb1 ih =>
    rw [collapseWs_ws_nws hb hb1]
    have e1 : b = ' ' := h1 b (by simp) hb
    rw [ih (fun c hc hw => h1 c (by simp [hc]) hw) (List.Chain'.tail h2), e1]
  | case5 b t hb ih =>
    rw [collapseWs_nws hb]
    rw [ih (fun c hc hw => h1 c (by simp [hc]) hw) (List.Chain'.tail h2)]

theorem newline_not_mem_of_wsOnly {l : List Char} (h : WsOnlySpace l) : '\n' ∉ l := by
  intro hm
  have := h '\n' hm (by decide)
  exact absurd this (by decide)

theorem isPageMarker_false_of_head {c : Char} {cs : List Char} (hc : c ≠ '\n') :
    isPageMarker (c :: cs) = false := by
  rw [isPageMarker.eq_def]
  split
  · rename_i heq
    injection heq with h1 _
    exact absurd h1 hc
  · rfl

theorem removePageMarkers_nil : removePageMarkers [] = [] := by
  rw [removePageMarkers.eq_def]

theorem removePageMarkers_cons_neg {c : Char} {cs : List Char}
    (h : isPageMarker (c :: cs) = false) :
    removePageMarkers (c :: cs) = c :: removePageMarkers cs := by
  rw [removePageMarkers.eq_def]
  simp [h]

theorem removePageMarkers_id {l : List Char} (h : '\n' ∉ l) :
    removePageMarkers l = l := by
  induction l with
  | nil => exact removePageMarkers_nil
  | cons c cs ih =>
    have hc : c ≠ '\n' := by
      intro he
      exact h (by simp [he])
    rw [removePageMarkers_cons_neg (isPageMarker_false_of_head hc)]
    rw [ih (fun hm => h (by simp [hm]))]

theorem lowerAZ_ne_space {c : Char} (h : isLowerAZ c = true) : c ≠ ' ' := by
  intro he
  subst he
  simp [isLowerAZ] at h

theorem upperAZ_ne_space {c : Char} (h : isUpperAZ c = true) : c ≠ ' ' := by
  intro he
  subst he
  simp [isUpperAZ] at h

theorem upperAZ_not_lower {c : Char} (h : isUpperAZ c = true) : isLowerAZ c = false := by
  by_contra hl
  rw [Bool.not_eq_false] at hl
  simp only [isUpperAZ, isLowerAZ, Bool.and_eq_true, decide_eq_true_eq, Char.le_def] at h hl
  exact absurd (UInt32.le_trans hl.1 h.2) (by decide)

theorem space_not_lower : isLowerAZ ' ' = false := by decide

theorem space_not_upper : isUpperAZ ' ' = false := by decide

theorem splitMerged_nil : splitMerged [] = [] := rfl

theorem splitMerged_single (c : Char) : splitMerged [c] = [c] := rfl

theorem splitMerged_pos {a b : Char} {t : List Char}
    (h : (isLowerAZ a && isUpperAZ b) = true) :
    splitMerged (a :: b :: t) = a :: ' ' :: b :: splitMerged t := by
  simp [splitMerged, h]

theorem splitMerged_neg {a b : Char} {t : List Char}
    (h : ¬(isLowerAZ a && isUpperAZ b) = true) :
    splitMerged (a :: b :: t) = a :: splitMerged (b :: t) := by
  simp only [splitMerged, if_neg h]

theorem head?_splitMerged (l : List Char) : (splitMerged l).head? = l.head? := by
  match l with
  | [] => rfl
  | [c] => rfl
  | a :: b :: t =>
    by_cases h : (isLowerAZ a && isUpperAZ b) = true
    · rw [splitMerged_pos h]; rfl
    · rw [splitMerged_neg h]; rfl

theorem mem_splitMerged {c : Char} {l : List Char} (hm : c ∈ splitMerged l) :
    c ∈ l ∨ c = ' ' := by
  induction l using splitMerged.induct with
  | case1 => rw [splitMerged_nil] at hm; simp at hm
  | case2 d => rw [splitMerged_single] at hm; exact Or.inl hm
  | case3 a b t h ih =>
    rw [splitMerged_pos h] at hm
    simp only [List.mem_cons] at hm
    rcases hm with h1 | h1 | h1 | h1
    · exact Or.inl (by simp [h1])
    · exact Or.inr h1
    · exact Or.inl (by simp [h1])
    · rcases ih h1 with h2 | h2
      · exact Or.inl (by simp [h2])
      · exact Or.inr h2
  | case4 a b t h ih =>
    rw [splitMerged_neg h] at hm
    simp only [List.mem_cons] at hm
    rcases hm with h1 | h1
    · exact Or.inl (by simp [h1])
    · rcases ih h1 with h2 | h2
      · exact Or.inl (by simp at h2 ⊢; exact Or.inr h2)
      · exact Or.inr h2

theorem noLU_splitMerged (l : List Char) : NoLowerUpper (splitMerged l) := by
  unfold NoLowerUpper
  induction l using splitMerged.induct with
  | case1 => rw [splitMerged_nil]; exact List.chain'_nil
  | case2 d => rw [splitMerged_single]; exact List.chain'_singleton d
  | case3 a b t h ih =>
    rw [splitMerged_pos h]
    rw [List.chain'_cons, List.chain'_cons]
    rw [Bool.and_eq_true] at h
    refine ⟨?_, ?_, ?_⟩
    · intro hcon; exact absurd hcon.2 (by simp [space_not_upper])
    · intro hcon; exact absurd hcon.1 (by simp [space_not_lower])
    · rw [List.chain'_cons']
      refine ⟨?_, ih⟩
      intro y _ hcon
      exact absurd hcon.1 (by simp [upperAZ_not_lower h.2])
  | case4 a b t h ih =>
    rw [splitMerged_neg h]
    rw [List.chain'_cons']
    refine ⟨?_, ih⟩
    intro y hy hcon
    rw [head?_splitMerged] at hy
    simp only [List.head?_cons, Option.mem_def, Option.some.injEq] at hy
    subst hy
    rw [Bool.and_eq_true] at h
    push_neg at h
    exact absurd (h hcon.1) (by simp [hcon.2])

theorem splitMerged_id {l : List Char} (h : NoLowerUpper l) : splitMerged l = l := by
  induction l using splitMerged.induct with
  | case1 => rfl
  | case2 d => rfl
  | case3 a b t hab ih =>
    exfalso
    unfold NoLowerUpper at h
    rw [List.chain'_cons] at h
    rw [Bool.and_eq_true] at hab
    exact h.1 ⟨hab.1, hab.2⟩
  | case4 a b t hab ih =>
    rw [splitMerged_neg hab]
    unfold NoLowerUpper at h ih
    rw [ih (List.Chain'.tail h)]

theorem noAdjSp_splitMerged {l : List Char} (h : NoAdjSp l) : NoAdjSp (splitMerged l) := by
  unfold NoAdjSp at h ⊢
  induction l using splitMerged.induct with
  | case1 => rw [splitMerged_nil]; exact List.chain'_nil
  | case2 d => rw [splitMerged_single]; exact List.chain'_singleton d
  | case3 a b t hab ih =>
    rw [splitMerged_pos hab]
    rw [Bool.and_eq_true] at hab
    rw [List.chain'_cons, List.chain'_cons]
    refine ⟨?_, ?_, ?_⟩
    · intro hcon; exact absurd hcon.1 (lowerAZ_ne_space hab.1)
    · intro hcon; exact absurd hcon.2 (upperAZ_ne_space hab.2)
    · rw [List.chain'_cons']
      refine ⟨?_, ih (h.tail.tail)⟩
      intro y _ hcon
      exact absurd hcon.1 (upperAZ_ne_space hab.2)
  | case4 a b t hab ih =>
    rw [splitMerged_neg hab]
    rw [List.chain'_cons']
    refine ⟨?_, ih h.tail⟩
    intro y hy hcon
    rw [head?_splitMerged] at hy
    simp only [List.head?_cons, Option.mem_def, Option.some.injEq] at hy
    subst hy
    rw [List.chain'_cons] at h
    exact h.1 hcon

theorem wordChar_ne_space {c : Char} (h : isWordChar c = true) : c ≠ ' ' := by
  intro he
  subst he
  simp [isWordChar, Char.isAlpha, Char.isUpper, Char.isLower, Char.isDigit] at h

theorem dot_ne_space : ('.' : Char) ≠ ' ' := by decide

theorem dot_not_lower : isLowerAZ '.' = false := by decide

theorem chain'_append_of_all {R : Char → Char → Prop} {A X : List Char}
    (hA : ∀ a ∈ A, ∀ b, R a b) (hX : List.Chain' R X) : List.Chain' R (A ++ X) := by
  induction A with
  | nil => simpa
  | cons a A ih =>
    rw [List.cons_append, List.chain'_cons']
    exact ⟨fun y _ => hA a (by simp) y, ih (fun a' ha' b => hA a' (by simp [ha']) b)⟩

theorem secD1_subset {rest : List Char} : secD1 rest ⊆ rest :=
  (List.takeWhile_sublist _).subset

theorem secRest2_subset {rest : List Char} : secRest2 rest ⊆ rest :=
  fun _ hm => List.drop_subset _ _ (List.drop_subset _ _ hm)

theorem secD2_subset {rest : List Char} : secD2 rest ⊆ rest :=
  fun _ hm => secRest2_subset ((List.takeWhile_sublist _).subset hm)

theorem secAfter_subset {rest : List Char} : secAfter rest ⊆ rest :=
  fun _ hm => secRest2_subset (List.drop_subset _ _ hm)

theorem secD1_digits {rest : List Char} {y : Char} (hy : y ∈ secD1 rest) :
    isDigitC y = true :=
  List.mem_takeWhile_imp hy

theorem secD2_digits {rest : List Char} {y : Char} (hy : y ∈ secD2 rest) :
    isDigitC y = true :=
  List.mem_takeWhile_imp hy

theorem secMatch_d1_ne {rest : List Char} (h : secMatch rest = true) : secD1 rest ≠ [] := by
  simp only [secMatch, Bool.and_eq_true, decide_eq_true_eq] at h
  exact h.1.1

theorem secMatch_d2_ne {rest : List Char} (h : secMatch rest = true) : secD2 rest ≠ [] := by
  simp only [secMatch, Bool.and_eq_true, decide_eq_true_eq] at h
  exact h.2

theorem sepSecNums_nil : sepSecNums [] = [] := by
  rw [sepSecNums.eq_def]

theorem sepSecNums_pos {a : Char} {rest : List Char}
    (h : (isWordChar a && secMatch rest) = true) :
    sepSecNums (a :: rest) =
      a :: ' ' :: (secD1 rest ++ '.' :: (secD2 rest ++ sepSecNums (secAfter rest))) := by
  rw [sepSecNums.eq_def]
  simp [h]

theorem sepSecNums_neg {a : Char} {rest : List Char}
    (h : ¬(isWordChar a && secMatch rest) = true) :
    sepSecNums (a :: rest) = a :: sepSecNums rest := by
  rw [sepSecNums.eq_def]
  simp [h]

theorem head?_sepSecNums (l : List Char) : (sepSecNums l).head? = l.head? := by
  match l with
  | [] => rw [sepSecNums_nil]
  | a :: rest =>
    by_cases h : (isWordChar a && secMatch rest) = true
    · rw [sepSecNums_pos h]; rfl
    · rw [sepSecNums_neg h]; rfl

theorem mem_sepSecNums {c : Char} {l : List Char} (hm : c ∈ sepSecNums l) :
    c ∈ l ∨ c = ' ' ∨ c = '.' := by
  induction l using sepSecNums.induct with
  | case1 => rw [sepSecNums_nil] at hm; simp at hm
  | case2 a rest h ih =>
    rw [sepSecNums_pos h] at hm
    simp only [List.mem_cons, List.mem_append] at hm
    rcases hm with h1 | h1 | h1 | h1 | h1 | h1
    · exact Or.inl (by simp [h1])
    · exact Or.inr (Or.inl h1)
    · exact Or.inl (by simp [secD1_subset h1])
    · exact Or.inr (Or.inr h1)
    · exact Or.inl (by simp [secD2_subset h1])
    · rcases ih h1 with h2 | h2
      · exact Or.inl (by simp [secAfter_subset h2])
      · exact Or.inr h2
  | case3 a rest h ih =>
    rw [sepSecNums_neg h] at hm
    simp only [List.mem_cons] at hm
    rcases hm with h1 | h1
    · exact Or.inl (by simp [h1])
    · rcases ih h1 with h2 | h2
      · exact Or.inl (by simp at h2 ⊢; exact Or.inr h2)
      · exact Or.inr h2

theorem chain'_secAfter {R : Char → Char → Prop} {rest : List Char}
    (h : List.Chain' R rest) : List.Chain' R (secAfter rest) := by
  unfold secAfter secRest2
  exact ((h.drop _).drop _).drop _

theorem noAdjSp_sepSecNums {l : List Char} (h : NoAdjSp l) : NoAdjSp (sepSecNums l) := by
  unfold NoAdjSp at h ⊢
  induction l using sepSecNums.induct with
  | case1 => rw [sepSecNums_nil]; exact List.chain'_nil
  | case2 a rest hg ih =>
    rw [sepSecNums_pos hg]
    rw [Bool.and_eq_true] at hg
    obtain ⟨d, d1', hd1⟩ := List.exists_cons_of_ne_nil (secMatch_d1_ne hg.2)
    rw [List.chain'_cons]
    constructor
    · intro hcon; exact absurd hcon.1 (wordChar_ne_space hg.1)
    rw [List.chain'_cons']
    constructor
    · intro y hy
      rw [hd1] at hy
      simp only [List.cons_append, List.head?_cons, Option.mem_def, Option.some.injEq] at hy
      subst hy
      intro hcon
      exact absurd hcon.2 (digitC_ne_space (secD1_digits (by rw [hd1]; simp)))
    have hX : List.Chain' (fun a b => ¬(a = ' ' ∧ b = ' ')) (sepSecNums (secAfter rest)) :=
      ih (chain'_secAfter h.tail)
    have hall : ∀ y ∈ secD1 rest ++ '.' :: secD2 rest, ∀ b,
        ¬(y = ' ' ∧ b = ' ') := by
      intro y hy b hcon
      simp only [List.mem_append, List.mem_cons] at hy
      rcases hy with hy | hy | hy
      · exact absurd hcon.1 (digitC_ne_space (secD1_digits hy))
      · subst hy; exact absurd hcon.1 dot_ne_space
      · exact absurd hcon.1 (digitC_ne_space (secD2_digits hy))
    have : secD1 rest ++ '.' :: (secD2 rest ++ sepSecNums (secAfter rest)) =
        (secD1 rest ++ '.' :: secD2 rest) ++ sepSecNums (secAfter rest) := by
      simp
    rw [this]
    exact chain'_append_of_all hall hX
  | case3 a rest hg ih =>
    rw [sepSecNums_neg hg]
    rw [List.chain'_cons']
    refine ⟨?_, ih h.tail⟩
    intro y hy hcon
    rw [head?_sepSecNums] at hy
    rw [List.chain'_cons'] at h
    exact h.1 y hy hcon

theorem noLU_sepSecNums {l : List Char} (h : NoLowerUpper l) :
    NoLowerUpper (sepSecNums l) := by
  unfold NoLowerUpper at h ⊢
  induction l using sepSecNums.induct with
  | case1 => rw [sepSecNums_nil]; exact List.chain'_nil
  | case2 a rest hg ih =>
    rw [sepSecNums_pos hg]
    rw [Bool.and_eq_true] at hg
    rw [List.chain'_cons]
    constructor
    · intro hcon; exact absurd hcon.2 (by simp [space_not_upper])
    rw [List.chain'_cons']
    constructor
    · intro y _ hcon
      exact absurd hcon.1 (by simp [space_not_lower])
    have hX := ih (chain'_secAfter h.tail)
    have hall : ∀ y ∈ secD1 rest ++ '.' :: secD2 rest, ∀ b,
        ¬(isLowerAZ y = true ∧ isUpperAZ b = true) := by
      intro y hy b hcon
      simp only [List.mem_append, List.mem_cons] at hy
      rcases hy with hy | hy | hy
      · exact absurd hcon.1 (by simp [digitC_not_lower (secD1_digits hy)])
      · subst hy; exact absurd hcon.1 (by simp [dot_not_lower])
      · exact absurd hcon.1 (by simp [digitC_not_lower (secD2_digits hy)])
    have heq : secD1 rest ++ '.' :: (secD2 rest ++ sepSecNums (secAfter rest)) =
        (secD1 rest ++ '.' :: secD2 rest) ++ sepSecNums (secAfter rest) := by
      simp
    rw [heq]
    exact chain'_append_of_all hall hX
  | case3 a rest hg ih =>
    rw [sepSecNums_neg hg]
    rw [List.chain'_cons']
    refine ⟨?_, ih h.tail⟩
    intro y hy hcon
    rw [head?_sepSecNums] at hy
    rw [List.chain'_cons'] at h
    exact h.1 y hy hcon

theorem strReplace_self (c : Char) (l : List Char) : strReplace [c] [c] l = l := by
  induction l with
  | nil => simp [strReplace]
  | cons a as ih =>
    by_cases h : c = a
    · subst h; simp [strReplace, startsWith, ih]
    · simp [strReplace, startsWith, h, ih]

theorem strReplace_nilL (p : Char) (ps repl : List Char) :
    strReplace (p :: ps) repl [] = [] := by
  rw [strReplace.eq_def]

theorem strReplace_pos {p c : Char} {ps cs repl : List Char}
    (h : startsWith (p :: ps) (c :: cs) = true) :
    strReplace (p :: ps) repl (c :: cs) =
      repl ++ strReplace (p :: ps) repl ((c :: cs).drop (p :: ps).length) := by
  rw [strReplace.eq_def]
  simp [h]

theorem strReplace_negL {p c : Char} {ps cs repl : List Char}
    (h : ¬startsWith (p :: ps) (c :: cs) = true) :
    strReplace (p :: ps) repl (c :: cs) = c :: strReplace (p :: ps) repl cs := by
  rw [strReplace.eq_def]
  simp [h]

theorem head?_strReplace_single (p : Char) (ps : List Char) (r c : Char) (cs : List Char) :
    (strReplace (p :: ps) [r] (c :: cs)).head? = some r ∨
    (strReplace (p :: ps) [r] (c :: cs)).head? = some c := by
  by_cases h : startsWith (p :: ps) (c :: cs) = true
  · rw [strReplace_pos h]; left; rfl
  · rw [strReplace_negL h]; right; rfl

theorem mem_strReplace_single {p r : Char} {ps : List Char} :
    ∀ n (l : List Char), l.length ≤ n → ∀ y ∈ strReplace (p :: ps) [r] l, y ∈ l ∨ y = r := by
  intro n
  induction n with
  | zero =>
    intro l hl y hy
    rw [List.length_eq_zero.mp (Nat.le_zero.mp hl)] at hy ⊢
    rw [strReplace_nilL] at hy
    simp at hy
  | succ n ih =>
    intro l hl y hy
    match l with
    | [] => rw [strReplace_nilL] at hy; simp at hy
    | c :: cs =>
      by_cases h : startsWith (p :: ps) (c :: cs) = true
      · rw [strReplace_pos h] at hy
        rcases List.mem_append.mp hy with h1 | h1
        · right; simpa using h1
        · have hlen : ((c :: cs).drop (p :: ps).length).length ≤ n := by
            simp only [List.length_drop, List.length_cons] at hl ⊢
            omega
          rcases ih _ hlen y h1 with h2 | h2
          · exact Or.inl (List.drop_subset _ _ h2)
          · exact Or.inr h2
      · rw [strReplace_negL h] at hy
        rcases List.mem_cons.mp hy with h1 | h1
        · exact Or.inl (by simp [h1])
        · have hlen : cs.length ≤ n := by
            simp only [List.length_cons] at hl
            omega
          rcases ih _ hlen y h1 with h2 | h2
          · exact Or.inl (by simp [h2])
          · exact Or.inr h2

theorem chain'_strReplace_single {R : Char → Char → Prop} {p r : Char} {ps : List Char}
    (hr1 : ∀ b, R r b) (hr2 : ∀ a, R a r) :
    ∀ n (l : List Char), l.length ≤ n → List.Chain' R l →
      List.Chain' R (strReplace (p :: ps) [r] l) := by
  intro n
  induction n with
  | zero =>
    intro l hl _
    rw [List.length_eq_zero.mp (Nat.le_zero.mp hl), strReplace_nilL]
    exact List.chain'_nil
  | succ n ih =>
    intro l hl hc
    match l with
    | [] => rw [strReplace_nilL]; exact List.chain'_nil
    | c :: cs =>
      by_cases h : startsWith (p :: ps) (c :: cs) = true
      · rw [strReplace_pos h]
        rw [List.cons_append, List.nil_append, List.chain'_cons']
        constructor
        · intro y _; exact hr1 y
        · have hlen : ((c :: cs).drop (p :: ps).length).length ≤ n := by
            simp only [List.length_drop, List.length_cons] at hl ⊢
            omega
          exact ih _ hlen (hc.drop _)
      · rw [strReplace_negL h]
        rw [List.chain'_cons']
        constructor
        · intro y hy
          cases cs with
          | nil => rw [strReplace_nilL] at hy; simp at hy
          | cons c2 cs2 =>
            rcases head?_strReplace_single p ps r c2 cs2 with he | he
            · rw [he] at hy
              simp only [Option.mem_def, Option.some.injEq] at hy
              subst hy
              exact hr2 c
            · rw [he] at hy
              simp only [Option.mem_def, Option.some.injEq] at hy
              subst hy
              exact (List.chain'_cons'.mp hc).1 c2 (by simp)
        · have hlen : cs.length ≤ n := by
            simp only [List.length_cons] at hl
            omega
          exact ih _ hlen hc.tail

theorem dropWhile_head_false {p : Char → Bool} :
    ∀ {l : List Char} {y : Char}, (l.dropWhile p).head? = some y → p y = false := by
  intro l
  induction l with
  | nil => intro y hy; simp at hy
  | cons a t ih =>
    intro y hy
    rw [List.dropWhile_cons] at hy
    split at hy
    · exact ih hy
    · simp only [List.head?_cons, Option.some.injEq] at hy
      subst hy
      rename_i hne
      exact Bool.not_eq_true _ ▸ (by simpa using hne)

theorem dropWhile_eq_self_of_head {p : Char → Bool} {l : List Char}
    (h : ∀ y, l.head? = some y → p y = false) : l.dropWhile p = l := by
  match l with
  | [] => rfl
  | a :: t =>
    rw [List.dropWhile_cons, if_neg]
    rw [h a rfl]
    simp

theorem suffix_getLast? {l₁ l₂ : List Char} (h : l₁ <:+ l₂) (hne : l₁ ≠ []) :
    l₂.getLast? = l₁.getLast? := by
  obtain ⟨t, rfl⟩ := h
  rw [List.getLast?_append]
  cases hq : l₁.getLast? with
  | none => exact absurd (List.getLast?_eq_none_iff.mp hq) hne
  | some x => rfl

theorem stripped_stripL (l : List Char) : StrippedP (stripL l) := by
  constructor
  · intro c hc
    unfold stripL at hc
    rw [List.head?_reverse] at hc
    by_cases hW : (l.dropWhile isPyWs).reverse.dropWhile isPyWs = []
    · rw [hW] at hc; simp at hc
    · rw [← suffix_getLast? (List.dropWhile_suffix _) hW] at hc
      rw [List.getLast?_reverse] at hc
      exact dropWhile_head_false hc
  · intro c hc
    unfold stripL at hc
    rw [List.getLast?_reverse] at hc
    exact dropWhile_head_false hc

theorem stripL_id {l : List Char} (h : StrippedP l) : stripL l = l := by
  unfold stripL
  rw [dropWhile_eq_self_of_head (fun y hy => h.1 y hy)]
  rw [dropWhile_eq_self_of_head (fun y hy => by rw [List.head?_reverse] at hy; exact h.2 y hy)]
  exact List.reverse_reverse l

theorem mem_stripL {y : Char} {l : List Char} (h : y ∈ stripL l) : y ∈ l := by
  unfold stripL at h
  rw [List.mem_reverse] at h
  have h1 := (List.dropWhile_sublist _).subset h
  rw [List.mem_reverse] at h1
  exact (List.dropWhile_sublist _).subset h1

theorem chain'_of_suffix {R : Char → Char → Prop} {l₁ l₂ : List Char}
    (h : l₂ <:+ l₁) (hc : List.Chain' R l₁) : List.Chain' R l₂ := by
  obtain ⟨t, rfl⟩ := h
  exact (List.chain'_append.1 hc).2.1

theorem chain'_stripL {R : Char → Char → Prop} {l : List Char}
    (h : List.Chain' R l) : List.Chain' R (stripL l) := by
  unfold stripL
  rw [List.chain'_reverse]
  refine chain'_of_suffix (List.dropWhile_suffix _) ?_
  rw [List.chain'_reverse]
  refine chain'_of_suffix (List.dropWhile_suffix _) ?_
  exact h

theorem clean_text_eq (x : List Char) :
    clean_text x =
      stripL (strReplace quoteReplaceSrc ['\'']
        (strReplace ['"'] ['"'] (strReplace ['"'] ['"']
          (sepSecNums (splitMerged (removePageMarkers (collapseWs x))))))) := rfl

theorem clean_text_wsOnly (x : List Char) : WsOnlySpace (clean_text x) := by
  rw [clean_text_eq]
  rw [removePageMarkers_id (newline_not_mem_of_wsOnly (wsOnlySpace_collapseWs x))]
  rw [strReplace_self, strReplace_self]
  intro c hc hw
  have h1 := mem_stripL hc
  rcases mem_strReplace_single _ _ (le_refl _) c h1 with h2 | h2
  · rcases mem_sepSecNums h2 with h3 | h3 | h3
    · rcases mem_splitMerged h3 with h4 | h4
      · exact wsOnlySpace_collapseWs x c h4 hw
      · exact h4
    · exact h3
    · subst h3; exact absurd hw (by decide)
  · subst h2; exact absurd hw (by decide)

theorem clean_text_noAdjSp (x : List Char) : NoAdjSp (clean_text x) := by
  rw [clean_text_eq]
  rw [removePageMarkers_id (newline_not_mem_of_wsOnly (wsOnlySpace_collapseWs x))]
  rw [strReplace_self, strReplace_self]
  unfold NoAdjSp
  refine chain'_stripL ?_
  refine chain'_strReplace_single ?_ ?_ _ _ (le_refl _) ?_
  · intro b hcon; exact absurd hcon.1 (by decide)
  · intro a hcon; exact absurd hcon.2 (by decide)
  · exact noAdjSp_sepSecNums (noAdjSp_splitMerged (noAdjSp_collapseWs x))

theorem clean_text_noLU (x : List Char) : NoLowerUpper (clean_text x) := by
  rw [clean_text_eq]
  rw [removePageMarkers_id (newline_not_mem_of_wsOnly (wsOnlySpace_collapseWs x))]
  rw [strReplace_self, strReplace_self]
  unfold NoLowerUpper
  refine chain'_stripL ?_
  refine chain'_strReplace_single ?_ ?_ _ _ (le_refl _) ?_
  · intro b hcon; exact absurd hcon.1 (by decide)
  · intro a hcon; exact absurd hcon.2 (by decide)
  · exact noLU_sepSecNums (noLU_splitMerged _)

theorem clean_text_stripped (x : List Char) : StrippedP (clean_text x) := by
  rw [clean_text_eq]
  exact stripped_stripL _

theorem clean_text_idem (x : List Char)
    (h4 : sepSecNums (clean_text x) = clean_text x)
    (h5 : strReplace quoteReplaceSrc ['\''] (clean_text x) = clean_text x) :
    clean_text (clean_text x) = clean_text x := by
  have hw := clean_text_wsOnly x
  have ha := clean_text_noAdjSp x
  have hl := clean_text_noLU x
  have hs := clean_text_stripped x
  rw [clean_text_eq (clean_text x)]
  rw [collapseWs_id hw ha]
  rw [removePageMarkers_id (newline_not_mem_of_wsOnly hw)]
  rw [splitMerged_id hl]
  rw [h4]
  rw [strReplace_self, strReplace_self]
  rw [h5]
  exact stripL_id hs

theorem chunk_text_single_sentence {l : List Char} (cs ov : Nat)
    (hne : l ≠ []) (hsplit : splitSentences l = [l]) (hstrip : stripL l = l) :
    chunk_text l cs ov = [⟨0, l, l.length, 0⟩] := by
  have hstep : chunkStep cs ov ⟨[], [], 0, 0⟩ l = ⟨[], l, l.length, 0⟩ := by
    unfold chunkStep
    rw [if_neg (by simp)]
    simp
  unfold chunk_text
  rw [hsplit]
  simp only [List.foldl_cons, List.foldl_nil, hstep]
  rw [if_pos hne]
  simp [mkChunkRec, hstrip, Int.zero_fdiv]

theorem process_document_scrub (e1 e2 : List Char → Option (List ℚ))
    (raw path : List Char) (nm : Option (List Char)) :
    (process_document e1 raw path nm).map scrubDoc =
      (process_document e2 raw path nm).map scrubDoc := by
  unfold process_document
  by_cases h : raw = []
  · simp [h]
  · simp only [if_neg h, Option.map_some]
    simp [scrubDoc, scrubChunk, List.map_map]

theorem process_document_zero_on_failure {e : List Char → Option (List ℚ)}
    {raw path : List Char} {nm : Option (List Char)} {doc : DocData}
    (hd : process_document e raw path nm = some doc) :
    ∀ c ∈ doc.chunks, e c.text = none → c.embedding = List.replicate embedding_dimension 0 := by
  unfold process_document at hd
  by_cases h : raw = []
  · simp [h] at hd
  · simp only [if_neg h, Option.some.injEq] at hd
    subst hd
    intro c hc hfail
    simp only [List.mem_map] at hc
    obtain ⟨ch, _, rfl⟩ := hc
    simp only at hfail ⊢
    simp [generate_embedding, hfail]

theorem map_scrubDoc_filterMap (e1 e2 : List Char → Option (List ℚ))
    (extractor : List Char → List Char) (files : List (List Char)) :
    (files.filterMap (fun p => process_document e1 (extractor p) p none)).map scrubDoc =
      (files.filterMap (fun p => process_document e2 (extractor p) p none)).map scrubDoc := by
  induction files with
  | nil => rfl
  | cons p ps ih =>
    simp only [List.filterMap_cons]
    have hp := process_document_scrub e1 e2 (extractor p) p none
    cases h1 : process_document e1 (extractor p) p none with
    | none =>
      rw [h1] at hp
      cases h2 : process_document e2 (extractor p) p none with
      | none => exact ih
      | some d2 => rw [h2] at hp; simp at hp
    | some d1 =>
      rw [h1] at hp
      cases h2 : process_document e2 (extractor p) p none with
      | none => rw [h2] at hp; simp at hp
      | some d2 =>
        rw [h2] at hp
        simp only [Option.map_some', Option.some.injEq] at hp
        rw [List.map_cons, List.map_cons, hp, ih]

theorem foldl_chunks_scrub (docs1 docs2 : List DocData) (acc1 acc2 : List ProcChunk)
    (hd : docs1.map scrubDoc = docs2.map scrubDoc)
    (ha : acc1.map scrubChunk = acc2.map scrubChunk) :
    (docs1.foldl (fun acc d => acc ++ d.chunks) acc1).map scrubChunk =
      (docs2.foldl (fun acc d => acc ++ d.chunks) acc2).map scrubChunk := by
  induction docs1 generalizing docs2 acc1 acc2 with
  | nil =>
    cases docs2 with
    | nil => simpa using ha
    | cons d2 ds2 => simp at hd
  | cons d1 ds1 ih =>
    cases docs2 with
    | nil => simp at hd
    | cons d2 ds2 =>
      simp only [List.map_cons, List.cons.injEq] at hd
      simp only [List.foldl_cons]
      refine ih ds2 _ _ hd.2 ?_
      simp only [List.map_append, ha]
      have : d1.chunks.map scrubChunk = d2.chunks.map scrubChunk := by
        have := congrArg DocData.chunks hd.1
        simpa [scrubDoc] using this
      rw [this]

theorem process_legal_documents_scrub (e1 e2 : List Char → Option (List ℚ))
    (extractor : List Char → List Char) (files : List (List Char)) (now : List Char) :
    (process_legal_documents e1 extractor files now).map scrubKB =
      (process_legal_documents e2 extractor files now).map scrubKB := by
  unfold process_legal_documents
  by_cases h : files = []
  · simp [h]
  · simp only [if_neg h, Except.map]
    have hdocs := map_scrubDoc_filterMap e1 e2 extractor files
    have hchunks := foldl_chunks_scrub _ _ [] [] hdocs rfl
    have hlen1 : (files.filterMap (fun p => process_document e1 (extractor p) p none)).length =
        (files.filterMap (fun p => process_document e2 (extractor p) p none)).length := by
      have := congrArg List.length hdocs
      simpa using this
    have hlen2 : ((files.filterMap (fun p => process_document e1 (extractor p) p none)).foldl
          (fun acc d => acc ++ d.chunks) []).length =
        ((files.filterMap (fun p => process_document e2 (extractor p) p none)).foldl
          (fun acc d => acc ++ d.chunks) []).length := by
      have := congrArg List.length hchunks
      simpa using this
    simp only [scrubKB, hdocs, hchunks, hlen1, hlen2]

theorem sumsq_nonneg (v : List ℚ) : 0 ≤ sumsq v := by
  unfold sumsq
  apply List.sum_nonneg
  intro x hx
  simp only [List.mem_map] at hx
  obtain ⟨y, _, rfl⟩ := hx
  exact mul_self_nonneg y

theorem normFix_pos {x : ℚ} (h : 0 ≤ x) : 0 < normFix x := by
  unfold normFix
  split
  · exact one_pos
  · rename_i hne; exact lt_of_le_of_ne h (Ne.symm hne)

theorem cosRow_den2_pos (q c : List ℚ) : 0 < (cosRow q c).den2 :=
  mul_pos (normFix_pos (sumsq_nonneg q)) (normFix_pos (sumsq_nonneg c))

theorem dfltScore_den2_pos : 0 < dfltScore.den2 := one_pos

theorem simAt_den2_pos (q : List ℚ) (rows : List (List ℚ)) (i : Nat) :
    0 < (simAt (rows.map (cosRow q)) i).den2 := by
  unfold simAt
  rcases lt_or_ge i (rows.map (cosRow q)).length with h | h
  · rw [List.getD_eq_getElem _ _ h]
    rw [List.length_map] at h
    rw [List.getElem_map]
    exact cosRow_den2_pos _ _
  · rw [List.getD_eq_default _ _ h]
    exact dfltScore_den2_pos

theorem ble_refl {s : Score} : Score.ble s s = true := by
  unfold Score.ble
  split
  · rw [decide_eq_true_eq]; exact Or.inr le_rfl
  · rename_i hle
    rw [decide_eq_true_eq]
    exact ⟨lt_of_not_le hle, le_rfl⟩

theorem ble_total (x y : Score) : Score.ble x y = true ∨ Score.ble y x = true := by
  unfold Score.ble
  rcases le_or_lt 0 x.num with hxn | hxn <;> rcases le_or_lt 0 y.num with hyn | hyn
  · rw [if_pos hyn, if_pos hxn, decide_eq_true_eq, decide_eq_true_eq]
    rcases le_total (x.num ^ 2 * y.den2) (y.num ^ 2 * x.den2) with h | h
    · exact Or.inl (Or.inr h)
    · exact Or.inr (Or.inr h)
  · right
    rw [if_pos hxn, decide_eq_true_eq]
    exact Or.inl hyn.le
  · left
    rw [if_pos hyn, decide_eq_true_eq]
    exact Or.inl hxn.le
  · rw [if_neg (not_le.mpr hyn), if_neg (not_le.mpr hxn), decide_eq_true_eq,
      decide_eq_true_eq]
    rcases le_total (y.num ^ 2 * x.den2) (x.num ^ 2 * y.den2) with h | h
    · exact Or.inl ⟨hxn, h⟩
    · exact Or.inr ⟨hyn, h⟩

theorem ble_trans {x y z : Score} (hx : 0 < x.den2) (hy : 0 < y.den2) (hz : 0 < z.den2)
    (h1 : Score.ble x y = true) (h2 : Score.ble y z = true) : Score.ble x z = true := by
  unfold Score.ble at h1 h2 ⊢
  by_cases hzn : 0 ≤ z.num
  · rw [if_pos hzn] at h2 ⊢
    rw [decide_eq_true_eq] at h2 ⊢
    by_cases hxn : x.num ≤ 0
    · exact Or.inl hxn
    · right
      push_neg at hxn
      by_cases hyn : 0 ≤ y.num
      · rw [if_pos hyn, decide_eq_true_eq] at h1
        rcases h1 with h1 | h1
        · exact absurd h1 (not_le.mpr hxn)
        · rcases h2 with h2 | h2
          · have hy0 : y.num = 0 := le_antisymm h2 hyn
            exfalso
            rw [hy0] at h1
            have hpos : 0 < x.num ^ 2 * y.den2 := mul_pos (pow_pos hxn 2) hy
            nlinarith [h1, hpos]
          · have k1 : x.num ^ 2 * y.den2 * z.den2 ≤ y.num ^ 2 * x.den2 * z.den2 :=
              mul_le_mul_of_nonneg_right h1 hz.le
            have k2 : y.num ^ 2 * z.den2 * x.den2 ≤ z.num ^ 2 * y.den2 * x.den2 :=
              mul_le_mul_of_nonneg_right h2 hx.le
            have k3 : x.num ^ 2 * z.den2 * y.den2 ≤ z.num ^ 2 * x.den2 * y.den2 := by
              nlinarith [k1, k2]
            exact (mul_le_mul_right hy).mp k3
      · rw [if_neg hyn, decide_eq_true_eq] at h1
        exact absurd h1.1 (not_lt.mpr hxn.le)
  · rw [if_neg hzn] at h2 ⊢
    rw [decide_eq_true_eq] at h2 ⊢
    by_cases hyn : 0 ≤ y.num
    · exact absurd h2.1 (not_lt.mpr hyn)
    · rw [if_neg hyn, decide_eq_true_eq] at h1
      refine ⟨h1.1, ?_⟩
      have k1 : z.num ^ 2 * y.den2 * x.den2 ≤ y.num ^ 2 * z.den2 * x.den2 :=
        mul_le_mul_of_nonneg_right h2.2 hx.le
      have k2 : y.num ^ 2 * x.den2 * z.den2 ≤ x.num ^ 2 * y.den2 * z.den2 :=
        mul_le_mul_of_nonneg_right h1.2 hz.le
      have k3 : z.num ^ 2 * x.den2 * y.den2 ≤ x.num ^ 2 * z.den2 * y.den2 := by
        nlinarith [k1, k2]
      exact (mul_le_mul_right hy).mp k3

theorem argsort_length (sims : List Score) : (argsortScores sims).length = sims.length := by
  unfold argsortScores
  rw [List.length_insertionSort, List.length_range]

theorem argsort_mem_lt {sims : List Score} {i : Nat} (h : i ∈ argsortScores sims) :
    i < sims.length := by
  unfold argsortScores at h
  rw [List.mem_insertionSort] at h
  exact List.mem_range.mp h

theorem argsort_sorted (sims : List Score)
    (hval : ∀ i, 0 < (simAt sims i).den2) :
    List.Pairwise (idxLe sims) (argsortScores sims) := by
  unfold argsortScores
  haveI ht : IsTotal Nat (idxLe sims) := ⟨fun i j => ble_total _ _⟩
  haveI htr : IsTrans Nat (idxLe sims) :=
    ⟨fun i j k h1 h2 => ble_trans (hval i) (hval j) (hval k) h1 h2⟩
  exact List.sorted_insertionSort _ _

theorem pySliceFrom_sublist (s : Int) (l : List α) : (pySliceFrom s l).Sublist l := by
  unfold pySliceFrom
  split <;> exact List.drop_sublist _ _

theorem pySliceFrom_neg_length {l : List α} {k : Int} (hk : 1 ≤ k) :
    (pySliceFrom (-k) l).length = min k.toNat l.length := by
  unfold pySliceFrom
  rw [if_pos (by omega : -k < 0)]
  rw [List.length_drop]
  omega

theorem pySliceFrom_neg_all {l : List α} {k : Int} (hk : (l.length : Int) ≤ k) :
    pySliceFrom (-k) l = l := by
  unfold pySliceFrom
  by_cases h : -k < 0
  · rw [if_pos h]
    have hz : l.length - (- -k).toNat = 0 := by omega
    rw [hz, List.drop_zero]
  · rw [if_neg h]
    have hl : l.length = 0 := by omega
    rw [List.length_eq_zero.mp hl]
    exact List.drop_nil

theorem pySliceFrom_nonpos {l : List α} {k : Int} (hk : k ≤ 0) :
    pySliceFrom (-k) l = l.drop (-k).toNat := by
  unfold pySliceFrom
  rw [if_neg (by omega)]

theorem pair_sublist_range {i j n : Nat} (hij : i < j) (hjn : j < n) :
    [i, j].Sublist (List.range n) := by
  induction n with
  | zero => omega
  | succ m ih =>
    rw [List.range_succ]
    by_cases h : j < m
    · exact (ih h).trans (List.sublist_append_left _ _)
    · have hj : j = m := by omega
      subst hj
      have : [i, j] = [i] ++ [j] := rfl
      rw [this]
      exact List.Sublist.append (List.singleton_sublist.mpr (List.mem_range.mpr hij))
        (List.Sublist.refl _)

theorem dotQ_zero_right : ∀ (q c : List ℚ), (∀ x ∈ c, x = 0) → dotQ q c = 0 := by
  intro q
  induction q with
  | nil => intro c _; cases c <;> simp [dotQ]
  | cons a q ih =>
    intro c hc
    cases c with
    | nil => simp [dotQ]
    | cons b c =>
      unfold dotQ at ih ⊢
      rw [List.zipWith_cons_cons, List.sum_cons]
      rw [hc b (by simp), ih c (fun x hx => hc x (by simp [hx]))]
      ring

theorem npArray_ok_homog {rows : List (List ℚ)} {arr : NpArr}
    (h : npArray rows = .ok arr) :
    ∀ r1 ∈ rows, ∀ r2 ∈ rows, r1.length = r2.length := by
  cases rows with
  | nil => intro r1 h1; simp at h1
  | cons r rs =>
    unfold npArray at h
    split at h
    · rename_i heq
      exact absurd heq (by simp)
    · rename_i r2 rs2 heq
      injection heq with e1 e2
      subst e1
      subst e2
      split at h
      · rename_i hall
        rw [List.all_eq_true] at hall
        intro r1 h1 r2 h2
        have g : ∀ x ∈ r :: rs, x.length = r.length := by
          intro x hx
          rcases List.mem_cons.mp hx with hx | hx
          · rw [hx]
          · exact decide_eq_true_eq.mp (hall x hx)
        rw [g r1 h1, g r2 h2]
      · exact absurd h (by simp)

theorem retriever_init_ok {kb : KB} {r : Retriever} (hr : retriever_init kb = .ok r) :
    r.chunks = kb.all_chunks ∧
    npArray (kb.all_chunks.map (fun c => c.embedding)) = .ok r.embeddings := by
  unfold retriever_init at hr
  cases h : npArray (kb.all_chunks.map (fun c => c.embedding)) with
  | error e => rw [h] at hr; simp at hr
  | ok arr =>
    rw [h] at hr
    injection hr with hr
    subst hr
    exact ⟨rfl, rfl⟩

theorem npArray_ok_matrix {rows : List (List ℚ)} {arr : NpArr} (hne : rows ≠ [])
    (h : npArray rows = .ok arr) : arr = .matrix rows := by
  cases rows with
  | nil => exact absurd rfl hne
  | cons r rs =>
    unfold npArray at h
    split at h
    · rename_i heq
      exact absurd heq (by simp)
    · rename_i r2 rs2 heq
      injection heq with e1 e2
      subst e1
      subst e2
      split at h
      · injection h with h
        exact h.symm
      · exact absurd h (by simp)

theorem cosine_similarity_matrix_eq (q : List ℚ) (rows : List (List ℚ)) :
    cosine_similarity q (.matrix rows) =
      if q.length = 0 then .error "Found array with 0 features".data
      else if (rows.headD []).length = q.length then .ok (rows.map (cosRow q))
      else .error "Incompatible dimension for X and Y matrices".data := rfl

theorem cosine_setup {kb : KB} {r : Retriever} (hr : retriever_init kb = .ok r)
    {q : List ℚ} (hne : kb.all_chunks ≠ []) (hq : q ≠ [])
    (hdim : ((kb.all_chunks.headD default).embedding).length = q.length) :
    cosine_similarity q r.embeddings =
      .ok ((kb.all_chunks.map (fun c => c.embedding)).map (cosRow q)) := by
  obtain ⟨hchunks, harr⟩ := retriever_init_ok hr
  have hrowsne : kb.all_chunks.map (fun c => c.embedding) ≠ [] := by
    simp [hne]
  have hmat := npArray_ok_matrix hrowsne harr
  have hq0 : ¬q.length = 0 := by
    intro h0
    exact hq (List.length_eq_zero.mp h0)
  have hcond : ((kb.all_chunks.map (fun c => c.embedding)).headD []).length = q.length := by
    cases hcs : kb.all_chunks with
    | nil => exact absurd hcs hne
    | cons c cs =>
      rw [hcs] at hdim
      simpa using hdim
  rw [hmat, cosine_similarity_matrix_eq, if_neg hq0, if_pos hcond]

/-- C1: loading a knowledge base in which two chunks have embedding vectors
of different lengths fails: building the embedding matrix with np.array
raises on the inhomogeneous rows, so the constructor raises and no usable
retriever is returned. -/
theorem load_rejects_mixed_dimension_kb (kb : KB)
    (h : ∃ c1 ∈ kb.all_chunks, ∃ c2 ∈ kb.all_chunks,
      c1.embedding.length ≠ c2.embedding.length) :
    ∃ e, retriever_init kb = .error e := by
  unfold retriever_init
  cases h2 : npArray (kb.all_chunks.map (fun c => c.embedding)) with
  | error e => exact ⟨e, rfl⟩
  | ok arr =>
    exfalso
    obtain ⟨c1, hc1, c2, hc2, hne⟩ := h
    exact hne (npArray_ok_homog h2 _ (List.mem_map_of_mem _ hc1) _
      (List.mem_map_of_mem _ hc2))

/-- C1 witness: a concrete knowledge base whose two chunks have embeddings
of lengths 2 and 3 is rejected at load time. -/
theorem load_rejects_mixed_dimension_kb_witness :
    (∃ c1 ∈ kbMixed.all_chunks, ∃ c2 ∈ kbMixed.all_chunks,
      c1.embedding.length ≠ c2.embedding.length) ∧
    ∃ e, retriever_init kbMixed = .error e := by
  have hc : ∃ c1 ∈ kbMixed.all_chunks, ∃ c2 ∈ kbMixed.all_chunks,
      c1.embedding.length ≠ c2.embedding.length := by
    refine ⟨cA, by simp [kbMixed], cM, by simp [kbMixed], by simp [cA, cM]⟩
  exact ⟨hc, load_rejects_mixed_dimension_kb kbMixed hc⟩

/-- C2 amended: searching a loaded knowledge base with zero chunks raises
(scikit-learn rejects the one-dimensional empty embedding array built by
np.array on an empty list) instead of returning an empty result list. -/
theorem empty_kb_search_raises (kb : KB) (hempty : kb.all_chunks = [])
    (r : Retriever) (hr : retriever_init kb = .ok r) (q : List ℚ) (top_k : Int) :
    search_similar_chunks r q top_k =
      .error "Expected 2D array, got 1D array instead".data := by
  obtain ⟨hchunks, harr⟩ := retriever_init_ok hr
  rw [hempty] at harr
  simp only [List.map_nil] at harr
  have hemb : r.embeddings = .empty1d := by
    unfold npArray at harr
    injection harr with h
    exact h.symm
  unfold search_similar_chunks
  rw [hemb]
  rfl

/-- C2 witness: the amended behaviour at a concrete empty knowledge base. -/
theorem empty_kb_search_raises_witness :
    search_similar_chunks ⟨[], .empty1d⟩ [1] 3 =
      .error "Expected 2D array, got 1D array instead".data :=
  empty_kb_search_raises kbEmpty rfl ⟨[], .empty1d⟩ rfl [1] 3

/-- C2 counterexample: on a knowledge base with zero chunks, loading
succeeds but search raises the scikit-learn validation error instead of
returning an empty list, refuting the claim that search returns an empty
sequence without raising. -/
theorem empty_kb_search_returns_error_cex :
    (retriever_init kbEmpty).bind (fun r => search_similar_chunks r [1, 0] 5) =
      .error "Expected 2D array, got 1D array instead".data := rfl

/-- C3: on a non-empty loaded knowledge base, search with top_k at least 1
succeeds and returns exactly min(top_k, N) results ordered by
non-increasing similarity; a top_k exceeding N is clamped to N by the
Python slice rather than causing an error. -/
theorem search_returns_min_topk_sorted (kb : KB) (r : Retriever)
    (hr : retriever_init kb = .ok r) (q : List ℚ) (top_k : Int)
    (hk : 1 ≤ top_k) (hne : kb.all_chunks ≠ []) (hq : q ≠ [])
    (hdim : ((kb.all_chunks.headD default).embedding).length = q.length) :
    ∃ res, search_similar_chunks r q top_k = .ok res ∧
      res.length = min top_k.toNat kb.all_chunks.length ∧
      List.Pairwise (fun a b => Score.ble b.similarity a.similarity = true) res := by
  have hcos := cosine_setup hr hne hq hdim
  unfold search_similar_chunks
  rw [hcos]
  refine ⟨_, rfl, ?_, ?_⟩
  · rw [List.length_map, List.length_reverse, pySliceFrom_neg_length hk, argsort_length]
    simp [List.length_map]
  · have hval : ∀ i,
        0 < (simAt ((kb.all_chunks.map (fun c => c.embedding)).map (cosRow q)) i).den2 :=
      fun i => simAt_den2_pos q _ i
    have hs := argsort_sorted _ hval
    have hs2 := List.Pairwise.sublist (pySliceFrom_sublist (-top_k) _) hs
    have hs3 := List.pairwise_reverse.mpr hs2
    exact List.Pairwise.map _ (fun a b hab => hab) hs3

/-- C3 witness: a two-chunk knowledge base searched with top_k 5 returns
min(5, 2) = 2 results in non-increasing score order. -/
theorem search_returns_min_topk_sorted_witness :
    ∃ res, search_similar_chunks ⟨kbAB.all_chunks, .matrix [[1, 0], [1, 0]]⟩ [1, 0] 5 =
        .ok res ∧
      res.length = min (5 : Int).toNat kbAB.all_chunks.length ∧
      List.Pairwise (fun a b => Score.ble b.similarity a.similarity = true) res :=
  search_returns_min_topk_sorted kbAB ⟨kbAB.all_chunks, .matrix [[1, 0], [1, 0]]⟩
    (by rfl) [1, 0] 5 (by norm_num) (by simp [kbAB]) (by simp)
    (by simp [kbAB, cA])

/-- C4 amended: numpy argsort sorts ascending and the code reverses it, so
among equal-scored selected chunks the one with the larger all_chunks index
appears earlier in the results (the opposite of smaller-index-first);
repeated identical queries still return the same order. -/
theorem tie_broken_larger_index_first (r : Retriever) (q : List ℚ)
    (sims : List Score) (hcos : cosine_similarity q r.embeddings = .ok sims)
    (i j : Nat) (hij : i < j) (hjn : j < sims.length)
    (htie : simAt sims i = simAt sims j) (top_k : Int)
    (hk : (sims.length : Int) ≤ top_k) :
    ∃ res, search_similar_chunks r q top_k = .ok res ∧
      [mkSearchResult r sims j, mkSearchResult r sims i].Sublist res := by
  unfold search_similar_chunks
  rw [hcos]
  refine ⟨_, rfl, ?_⟩
  have h1 : [i, j].Sublist (argsortScores sims) := by
    unfold argsortScores
    refine List.pair_sublist_insertionSort ?_ (pair_sublist_range hij hjn)
    unfold idxLe
    rw [htie]
    exact ble_refl
  rw [pySliceFrom_neg_all (by rw [argsort_length]; exact hk)]
  exact List.Sublist.map (mkSearchResult r sims) h1.reverse

/-- C5: a chunk whose embedding is the all-zero vector is assigned
similarity numerator exactly 0 (the zero-norm guard of sklearn normalize
replaces the zero norm by 1, so no division error occurs) and search
completes successfully. -/
theorem zero_embedding_chunk_scores_zero (kb : KB) (r : Retriever)
    (hr : retriever_init kb = .ok r) (q : List ℚ) (hq : q ≠ [])
    (hdim : ((kb.all_chunks.headD default).embedding).length = q.length)
    (hne : kb.all_chunks ≠ []) (i : Nat) (hi : i < kb.all_chunks.length)
    (hzero : ∀ x ∈ (kb.all_chunks.getD i default).embedding, x = 0) (top_k : Int) :
    ∃ sims, cosine_similarity q r.embeddings = .ok sims ∧ (simAt sims i).num = 0 ∧
      ∃ res, search_similar_chunks r q top_k = .ok res := by
  have hcos := cosine_setup hr hne hq hdim
  refine ⟨_, hcos, ?_, ?_⟩
  · unfold simAt
    have hlen : i < ((kb.all_chunks.map (fun c => c.embedding)).map (cosRow q)).length := by
      simpa using hi
    rw [List.getD_eq_getElem _ _ hlen]
    rw [List.getElem_map, List.getElem_map]
    unfold cosRow
    have hz : ∀ x ∈ (kb.all_chunks[i]).embedding, x = 0 := by
      rw [← List.getD_eq_getElem kb.all_chunks default hi]
      exact hzero
    exact dotQ_zero_right q _ hz
  · unfold search_similar_chunks
    rw [hcos]
    exact ⟨_, rfl⟩

/-- C5 witness: on a concrete knowledge base whose second chunk has the
all-zero embedding, that chunk scores 0 and search succeeds. -/
theorem zero_embedding_chunk_scores_zero_witness :
    ∃ sims, cosine_similarity [1, 0]
        (⟨kbZ.all_chunks, .matrix [[1, 0], [0, 0]]⟩ : Retriever).embeddings = .ok sims ∧
      (simAt sims 1).num = 0 ∧
      ∃ res, search_similar_chunks ⟨kbZ.all_chunks, .matrix [[1, 0], [0, 0]]⟩ [1, 0] 5 =
        .ok res :=
  zero_embedding_chunk_scores_zero kbZ ⟨kbZ.all_chunks, .matrix [[1, 0], [0, 0]]⟩
    (by rfl) [1, 0] (by simp) (by simp [kbZ, cA]) (by simp [kbZ]) 1 (by simp [kbZ])
    (by intro x hx; simp [kbZ, cZ] at hx; simpa using hx) 5

/-- C8 amended: search performs no input validation: a non-positive top_k
is fed straight into the Python slice, so top_k = 0 selects every chunk
and a negative top_k drops the lowest-scoring chunks; the call succeeds
and returns results instead of being rejected. -/
theorem nonpositive_topk_not_rejected (kb : KB) (r : Retriever)
    (hr : retriever_init kb = .ok r) (q : List ℚ) (top_k : Int)
    (hk : top_k ≤ 0) (hne : kb.all_chunks ≠ []) (hq : q ≠ [])
    (hdim : ((kb.all_chunks.headD default).embedding).length = q.length) :
    ∃ res, search_similar_chunks r q top_k = .ok res ∧
      res.length = kb.all_chunks.length - (-top_k).toNat := by
  have hcos := cosine_setup hr hne hq hdim
  unfold search_similar_chunks
  rw [hcos]
  refine ⟨_, rfl, ?_⟩
  rw [List.length_map, List.length_reverse, pySliceFrom_nonpos hk, List.length_drop,
    argsort_length]
  simp [List.length_map]

/-- C8 witness: top_k = 0 on a two-chunk knowledge base returns all 2
chunks instead of rejecting the call. -/
theorem nonpositive_topk_not_rejected_witness :
    ∃ res, search_similar_chunks ⟨kbAB.all_chunks, .matrix [[1, 0], [1, 0]]⟩ [1, 0] 0 =
        .ok res ∧
      res.length = kbAB.all_chunks.length - ((0 : Int)).toNat :=
  have h := nonpositive_topk_not_rejected kbAB ⟨kbAB.all_chunks, .matrix [[1, 0], [1, 0]]⟩
    (by rfl) [1, 0] 0 (by norm_num) (by simp [kbAB]) (by simp) (by simp [kbAB, cA])
  by simpa using h

/-- C4 counterexample: two chunks with identical embeddings (equal cosine
scores) are returned with the larger index first: searching the concrete
two-chunk knowledge base yields chunk id doc_chunk_1 before doc_chunk_0,
refuting smaller-index-first tie-breaking. -/
theorem tie_smaller_index_first_refuted_cex :
    (retriever_init kbAB).bind (fun r => search_similar_chunks r [1, 0] 2) =
      .ok [⟨"beta".data, ⟨1, 1⟩, "doc".data, "doc_chunk_1".data, ⟨1, 4, "doc.pdf".data, 0⟩⟩,
           ⟨"alpha".data, ⟨1, 1⟩, "doc".data, "doc_chunk_0".data, ⟨0, 5, "doc.pdf".data, 0⟩⟩] := by
  have h01 : idxLe [(⟨1, 1⟩ : Score), ⟨1, 1⟩] 0 1 := by
    unfold idxLe simAt
    rw [List.getD_cons_zero, List.getD_cons_succ, List.getD_cons_zero]
    unfold Score.ble
    rw [if_pos (by norm_num)]
    rw [decide_eq_true_eq]
    right
    norm_num
  norm_num [retriever_init, kbAB, cA, cB, npArray, search_similar_chunks,
    cosine_similarity, argsortScores, List.insertionSort, List.orderedInsert,
    List.range, List.range_succ, pySliceFrom, mkSearchResult, simAt, h01,
    cosRow, dotQ, sumsq, normFix, dfltScore, Except.bind]

/-- C4 witness: the amended tie-breaking applied to the concrete two-chunk
knowledge base: the pair (index 1 result, index 0 result) embeds in the
returned order. -/
theorem tie_broken_larger_index_first_witness :
    ∃ res, search_similar_chunks ⟨kbAB.all_chunks, .matrix [[1, 0], [1, 0]]⟩ [1, 0] 2 =
        .ok res ∧
      [mkSearchResult ⟨kbAB.all_chunks, .matrix [[1, 0], [1, 0]]⟩
          [cosRow [1, 0] [1, 0], cosRow [1, 0] [1, 0]] 1,
        mkSearchResult ⟨kbAB.all_chunks, .matrix [[1, 0], [1, 0]]⟩
          [cosRow [1, 0] [1, 0], cosRow [1, 0] [1, 0]] 0].Sublist res :=
  tie_broken_larger_index_first ⟨kbAB.all_chunks, .matrix [[1, 0], [1, 0]]⟩ [1, 0]
    [cosRow [1, 0] [1, 0], cosRow [1, 0] [1, 0]] (by rfl) 0 1 (by norm_num)
    (by norm_num) (by rfl) 2 (by norm_num)

/-- C8 counterexample: search with top_k = 0 on a one-chunk knowledge base
is not rejected: it succeeds and returns the chunk (the slice with start
minus zero selects everything), refuting immediate rejection of
non-positive top_k. -/
theorem nonpositive_topk_not_rejected_cex :
    (retriever_init kbA).bind (fun r => search_similar_chunks r [1, 0] 0) =
      .ok [⟨"alpha".data, ⟨1, 1⟩, "doc".data, "doc_chunk_0".data,
        ⟨0, 5, "doc.pdf".data, 0⟩⟩] := by
  norm_num [retriever_init, kbA, cA, npArray, search_similar_chunks,
    cosine_similarity, argsortScores, List.insertionSort, List.orderedInsert,
    List.range, List.range_succ, pySliceFrom, mkSearchResult, simAt,
    cosRow, dotQ, sumsq, normFix, dfltScore, Except.bind]


/-- C6 counterexample: clean_text is not idempotent: on the input 123.45
one application yields 1 23.45 and a second application splits further to
1 2 3.45. -/
theorem clean_text_not_idempotent_cex :
    clean_text (clean_text "123.45".data) ≠ clean_text "123.45".data ∧
    clean_text "123.45".data = "1 23.45".data ∧
    clean_text (clean_text "123.45".data) = "1 2 3.45".data := by
  have h1 : clean_text "123.45".data = "1 23.45".data := by
    simp [clean_text, collapseWs, removePageMarkers, isPageMarker, startsWith, splitMerged,
      isLowerAZ, isUpperAZ, sepSecNums, secMatch, secD1, secD2, secRest2, secAfter, isWordChar,
      isDigitC, isPyWs, strReplace, quoteReplaceSrc, stripL]
  have h2 : clean_text "1 23.45".data = "1 2 3.45".data := by
    simp [clean_text, collapseWs, removePageMarkers, isPageMarker, startsWith, splitMerged,
      isLowerAZ, isUpperAZ, sepSecNums, secMatch, secD1, secD2, secRest2, secAfter, isWordChar,
      isDigitC, isPyWs, strReplace, quoteReplaceSrc, stripL]
  refine ⟨?_, h1, by rw [h1, h2]⟩
  rw [h1, h2]
  decide

/-- C6 amended: clean_text is idempotent exactly on inputs whose cleaned
form is already a fixed point of the section-number splitting substitution
and of the quote replacement call; every other cleaning stage is always a
fixed point on cleaned text (whitespace is collapsed to single spaces, no
page markers or merged-word boundaries survive, and the text is
stripped). -/
theorem clean_text_idempotent_on_fixpoints (x : List Char)
    (h4 : sepSecNums (clean_text x) = clean_text x)
    (h5 : strReplace quoteReplaceSrc ['\''] (clean_text x) = clean_text x) :
    clean_text (clean_text x) = clean_text x :=
  clean_text_idem x h4 h5

/-- C6 witness: the amended idempotence at a concrete input whose cleaned
form has no residual pattern. -/
theorem clean_text_idempotent_on_fixpoints_witness :
    sepSecNums (clean_text "Hi.".data) = clean_text "Hi.".data ∧
    strReplace quoteReplaceSrc ['\''] (clean_text "Hi.".data) = clean_text "Hi.".data ∧
    clean_text (clean_text "Hi.".data) = clean_text "Hi.".data := by
  have h4 : sepSecNums (clean_text "Hi.".data) = clean_text "Hi.".data := by
    simp [clean_text, collapseWs, removePageMarkers, isPageMarker, startsWith, splitMerged,
      isLowerAZ, isUpperAZ, sepSecNums, secMatch, secD1, secD2, secRest2, secAfter, isWordChar,
      isDigitC, isPyWs, strReplace, quoteReplaceSrc, stripL]
  have h5 : strReplace quoteReplaceSrc ['\''] (clean_text "Hi.".data) = clean_text "Hi.".data := by
    simp [clean_text, collapseWs, removePageMarkers, isPageMarker, startsWith, splitMerged,
      isLowerAZ, isUpperAZ, sepSecNums, secMatch, secD1, secD2, secRest2, secAfter, isWordChar,
      isDigitC, isPyWs, strReplace, quoteReplaceSrc, stripL]
  exact ⟨h4, h5, clean_text_idempotent_on_fixpoints "Hi.".data h4 h5⟩

/-- C7: evaluation at the failing input: with chunk_size 10 and overlap 2
the text aaaa. bbbb. cc. produces a first chunk whose text aaaa. bbbb.
has length 11, exceeding chunk_size, although it is two sentences and not
a single oversized sentence; the tracked size counter (10) omits the
joining space the code itself inserts. -/
theorem chunk_size_bound_violated :
    chunk_text "aaaa. bbbb. cc.".data 10 2 =
      [⟨0, "aaaa. bbbb.".data, 10, 0⟩, ⟨1, "b. cc.".data, 6, 0⟩] ∧
    ("aaaa. bbbb.".data).length = 11 ∧ 11 > 10 ∧
    splitSentences "aaaa. bbbb.".data = ["aaaa.".data, "bbbb.".data] := by
  refine ⟨?_, by norm_num, by norm_num, ?_⟩
  · simp [chunk_text, splitSentences, ssAux, ssSkip, isPyWs, endsSentencePunct, chunkStep,
      mkChunkRec, _get_overlap_text, findSub, startsWith, stripL, Int.fdiv]
  · simp [splitSentences, ssAux, ssSkip, isPyWs, endsSentencePunct]

/-- C9 counterexample: a run whose embedder fails on every chunk returns a
document record whose statistics (and everything else except the embedding
vectors) are identical to those of a fully successful run: the zero-vector
substitution leaves no visible trace, refuting that failures are counted
and reported. -/
theorem embedding_failure_invisible_cex :
    (process_document (fun _ => none) "Hi.".data "d.pdf".data none).map scrubDoc =
      (process_document (fun _ => some [1]) "Hi.".data "d.pdf".data none).map scrubDoc ∧
    (process_document (fun _ => none) "Hi.".data "d.pdf".data none).map
        (fun d => d.chunks.map (fun c => c.embedding)) =
      some [List.replicate embedding_dimension 0] ∧
    (process_document (fun _ => some [1]) "Hi.".data "d.pdf".data none).map
        (fun d => d.chunks.map (fun c => c.embedding)) = some [[1]] := by
  have hstem : pathStem "d.pdf".data = "d".data := by decide
  refine ⟨process_document_scrub _ _ _ _ _, ?_, ?_⟩ <;>
    simp [process_document, hstem, findSub, startsWith, generate_embedding,
      clean_text, collapseWs, removePageMarkers, isPageMarker, splitMerged,
      isLowerAZ, isUpperAZ, sepSecNums, secMatch, secD1, secD2, secRest2, secAfter, isWordChar,
      isDigitC, isPyWs, strReplace, quoteReplaceSrc, stripL,
      chunk_text, splitSentences, ssAux, ssSkip, endsSentencePunct, chunkStep,
      mkChunkRec, _get_overlap_text, Int.fdiv]

/-- C9 amended: when the embedding collaborator fails on a chunk, a zero
vector of the configured dimension is substituted and processing
continues; but the failure is not counted anywhere: the document and
knowledge-base records of any run are identical, apart from the embedding
vectors themselves, to those of a failure-free run, so no ingestion
statistic reveals a degraded knowledge base. -/
theorem embedding_failure_substituted_uncounted
    (embedder : List Char → Option (List ℚ)) (raw path : List Char)
    (nm : Option (List Char)) (doc : DocData)
    (hd : process_document embedder raw path nm = some doc) :
    (∀ c ∈ doc.chunks, embedder c.text = none →
        c.embedding = List.replicate embedding_dimension 0) ∧
    (∀ embedder2, (process_document embedder2 raw path nm).map scrubDoc =
        some (scrubDoc doc)) ∧
    (∀ embedder2 extractor files now,
        (process_legal_documents embedder2 extractor files now).map scrubKB =
          (process_legal_documents embedder extractor files now).map scrubKB) := by
  refine ⟨process_document_zero_on_failure hd, ?_, ?_⟩
  · intro e2
    rw [process_document_scrub e2 embedder raw path nm, hd]
    rfl
  · intro e2 extractor files now
    exact process_legal_documents_scrub e2 embedder extractor files now

/-- C9 witness: the amended statement applied to a concrete failing run. -/
theorem embedding_failure_substituted_uncounted_witness :
    process_document (fun _ => none) "Hi.".data "d.pdf".data none = some docHi ∧
    (∀ c ∈ docHi.chunks, (fun _ => none : List Char → Option (List ℚ)) c.text = none →
        c.embedding = List.replicate embedding_dimension 0) := by
  have hd : process_document (fun _ => none) "Hi.".data "d.pdf".data none = some docHi := by
    have hstem : pathStem "d.pdf".data = "d".data := by decide
    have hrepr : (Nat.repr 0).data = ['0'] := by decide
    simp [process_document, hstem, hrepr, findSub, startsWith, generate_embedding, docHi,
      clean_text, collapseWs, removePageMarkers, isPageMarker, splitMerged,
      isLowerAZ, isUpperAZ, sepSecNums, secMatch, secD1, secD2, secRest2, secAfter, isWordChar,
      isDigitC, isPyWs, strReplace, quoteReplaceSrc, stripL,
      chunk_text, splitSentences, ssAux, ssSkip, endsSentencePunct, chunkStep,
      mkChunkRec, _get_overlap_text, Int.fdiv]
  exact ⟨hd, (embedding_failure_substituted_uncounted _ _ _ _ _ hd).1⟩

/-- C10 counterexample: the chunker emits a 3-character chunk: nothing
drops chunks shorter than 10 characters. -/
theorem short_chunks_not_dropped_cex :
    chunk_text "Hi.".data 1000 200 = [⟨0, "Hi.".data, 3, 0⟩] ∧
    ("Hi.".data).length < 10 := by
  refine ⟨?_, by norm_num⟩
  simp [chunk_text, splitSentences, ssAux, ssSkip, isPyWs, endsSentencePunct, chunkStep,
    mkChunkRec, _get_overlap_text, findSub, startsWith, stripL, Int.fdiv]

/-- C10 amended: no minimum-length filtering exists: any non-empty
single-sentence stripped text, however short, is returned as a chunk of
exactly its own length; only empty buffers are suppressed. -/
theorem chunker_emits_short_chunks (l : List Char) (cs ov : Nat) (hne : l ≠ [])
    (hsplit : splitSentences l = [l]) (hstrip : stripL l = l) :
    chunk_text l cs ov = [⟨0, l, l.length, 0⟩] :=
  chunk_text_single_sentence cs ov hne hsplit hstrip

/-- C10 witness: the 3-character text Hi. is emitted as its own chunk for
the default parameters. -/
theorem chunker_emits_short_chunks_witness :
    chunk_text "Hi.".data 1000 200 = [⟨0, "Hi.".data, ("Hi.".data).length, 0⟩] :=
  chunker_emits_short_chunks "Hi.".data 1000 200 (by simp)
    (by simp [splitSentences, ssAux, ssSkip, isPyWs, endsSentencePunct])
    (by simp [stripL, isPyWs])
